import Mathlib

/-!
# Verification of the MT4-report → Pine-Script pipeline

Shallow embedding of the trade-processing pipeline of this repository
(`tradeProcessor.ts`, `pineScriptGenerator.ts`, `types.ts`): report parsing,
trade classification/grouping/deduplication, timestamp reconciliation and
script generation, together with proofs of the specified properties.

Modelling conventions:
* JavaScript numbers are modelled as `Option ℚ` (`none` = `NaN`); the inputs
  handled by this pipeline never produce infinities, which are outside the
  model.
* The DOM document produced by `DOMParser.parseFromString` (a total browser
  API) is modelled as the list of its `table` elements, each carrying its
  `textContent` and the `textContent` of the `td` cells of each `tr` row.
* A JS exception is modelled with `Except Unit`; the only reachable throw in
  the pipeline is the `TypeError` raised by `parseMT4DateToUTC` on a date
  string without a space (`timePart` is `undefined`).
-/

/-- Propositional equality on `Except` values is decidable componentwise
(used to evaluate the embedded functions on concrete inputs). -/
instance instDecEqExcept {ε : Type u} {α : Type v} [DecidableEq ε] [DecidableEq α] :
    DecidableEq (Except ε α)
  | .error x, .error y =>
    if h : x = y then .isTrue (by rw [h]) else .isFalse (fun hc => by cases hc; exact h rfl)
  | .error _, .ok _ => .isFalse (fun hc => by cases hc)
  | .ok _, .error _ => .isFalse (fun hc => by cases hc)
  | .ok x, .ok y =>
    if h : x = y then .isTrue (by rw [h]) else .isFalse (fun hc => by cases hc; exact h rfl)

namespace MT4

/-- A JavaScript number: `some q` is the finite value `q`, `none` is `NaN`. -/
abbrev JNum := Option ℚ

/-- JS `a > b`: `false` whenever either operand is `NaN`. -/
def jgt : JNum → JNum → Bool
  | some x, some y => decide (y < x)
  | _, _ => false

/-- JS `a >= b`: `false` whenever either operand is `NaN`. -/
def jge : JNum → JNum → Bool
  | some x, some y => decide (y ≤ x)
  | _, _ => false

/-- JS `a <= b`: `false` whenever either operand is `NaN`. -/
def jle : JNum → JNum → Bool
  | some x, some y => decide (x ≤ y)
  | _, _ => false

/-- Model of JS `String.prototype.trim` (over the ASCII whitespace that can
occur in the report cells). -/
def jsTrim (s : String) : String :=
  ⟨((s.data.dropWhile Char.isWhitespace).reverse.dropWhile Char.isWhitespace).reverse⟩

/-- Whether the first list is an initial segment of the second. -/
def listStarts : List Char → List Char → Bool
  | [], _ => true
  | _ :: _, [] => false
  | p :: ps, c :: cs => p == c && listStarts ps cs

/-- Whether the pattern occurs contiguously inside the list. -/
def listHasSub (pat : List Char) : List Char → Bool
  | [] => listStarts pat []
  | c :: cs => listStarts pat (c :: cs) || listHasSub pat cs

/-- Model of JS `String.prototype.includes`. -/
def jsIncludes (s pat : String) : Bool := listHasSub pat.data s.data

/-- Model of JS `String.prototype.toLowerCase` (ASCII). -/
def jsToLower (s : String) : String := ⟨s.data.map Char.toLower⟩

/-- Model of JS `String.prototype.toUpperCase` (ASCII). -/
def jsToUpper (s : String) : String := ⟨s.data.map Char.toUpper⟩

/-- Value of a digit character. -/
def digitVal (c : Char) : ℕ := c.toNat - '0'.toNat

/-- Value of a list of digit characters read in base 10. -/
def digitsVal (ds : List Char) : ℕ := ds.foldl (fun n c => 10 * n + digitVal c) 0

/-- Parse a decimal exponent `[+-]? digits` prefix, returning its value and
the remaining characters; `none` when no digit follows the optional sign. -/
def parseExpPrefix : List Char → Option (Int × List Char)
  | '+' :: r =>
    let ds := r.takeWhile Char.isDigit
    if ds.isEmpty then none else some ((digitsVal ds : Int), r.dropWhile Char.isDigit)
  | '-' :: r =>
    let ds := r.takeWhile Char.isDigit
    if ds.isEmpty then none else some (-(digitsVal ds : Int), r.dropWhile Char.isDigit)
  | r =>
    let ds := r.takeWhile Char.isDigit
    if ds.isEmpty then none else some ((digitsVal ds : Int), r.dropWhile Char.isDigit)

/-- Parse the longest unsigned decimal-literal prefix
(`digits [. digits] [e exp]`, or `. digits [e exp]`), returning its value and
the remaining characters; `none` when no numeric prefix exists. -/
def parseUnsignedParts (cs : List Char) : Option (ℚ × List Char) :=
  let intD := cs.takeWhile Char.isDigit
  let rest := cs.dropWhile Char.isDigit
  let (fracD, rest2) :=
    match rest with
    | '.' :: r => (r.takeWhile Char.isDigit, r.dropWhile Char.isDigit)
    | _ => (([] : List Char), rest)
  if intD.isEmpty && fracD.isEmpty then none
  else
    let (e, rest3) :=
      match rest2 with
      | c :: r =>
        if c = 'e' ∨ c = 'E' then
          match parseExpPrefix r with
          | some (e, r3) => (e, r3)
          | none => ((0 : Int), c :: r)
        else ((0 : Int), c :: r)
      | [] => ((0 : Int), ([] : List Char))
    -- value = (intD.fracD) × 10^e = M × 10^(e - |fracD|), as one `mkRat`
    let M : ℕ := digitsVal intD * 10 ^ fracD.length + digitsVal fracD
    let p : Int := e - fracD.length
    if 0 ≤ p then some (mkRat (M * 10 ^ p.toNat) 1, rest3)
    else some (mkRat M (10 ^ (-p).toNat), rest3)

/-- Signed decimal-literal prefix. -/
def parseSignedParts : List Char → Option (ℚ × List Char)
  | '+' :: r => parseUnsignedParts r
  | '-' :: r => (parseUnsignedParts r).map (fun p => (-p.1, p.2))
  | r => parseUnsignedParts r

/-- Model of JS `parseFloat`: skip leading whitespace, parse the longest
decimal-literal prefix, `NaN` when there is none.  (The `Infinity` literal
never occurs in report cells and is outside the model.) -/
def jsParseFloat (s : String) : JNum :=
  (parseSignedParts (s.data.dropWhile Char.isWhitespace)).map Prod.fst

/-- Model of JS `Number(string)`: trimmed empty string is `0`, otherwise the
whole trimmed string must be a decimal literal.  (Hex/octal/binary and
`Infinity` literals never occur in the date components fed to it and are
outside the model.) -/
def jsNumber (s : String) : JNum :=
  let cs := ((s.data.dropWhile Char.isWhitespace).reverse.dropWhile Char.isWhitespace).reverse
  if cs.isEmpty then some 0
  else
    match parseSignedParts cs with
    | some (v, []) => some v
    | _ => none

/-- A closed-trade record (`Trade` in `types.ts`). -/
structure Trade where
  ticket : String
  openTimeRaw : String
  type : String
  size : JNum
  item : String
  openPrice : JNum
  closeTimeRaw : String
  closePrice : JNum
  profit : JNum
deriving DecidableEq, Repr

/-- One instrument's three outcome buckets. -/
structure TradeBuckets where
  winners : List Trade
  breakeven : List Trade
  losers : List Trade
deriving DecidableEq, Repr

def TradeBuckets.empty : TradeBuckets := ⟨[], [], []⟩

/-- The `GroupedTrades` JS object: instrument → buckets, modelled as an
insertion-ordered association list (JS objects preserve string-key insertion
order). -/
abbrev GroupedTrades := List (String × TradeBuckets)

/-- `grouped[i]` (`undefined` = `none`). -/
def getGroup : GroupedTrades → String → Option TradeBuckets
  | [], _ => none
  | p :: g, i => if p.1 = i then some p.2 else getGroup g i

/-- In-place update of the bucket record stored under an existing key
(no effect when the key is absent). -/
def modifyGroup : GroupedTrades → String → (TradeBuckets → TradeBuckets) → GroupedTrades
  | [], _, _ => []
  | p :: g, i, f => if p.1 = i then (p.1, f p.2) :: g else p :: modifyGroup g i f

/-- `if (!grouped[trade.item]) grouped[trade.item] = {winners: [], ...}`:
lazily create a group, appended in insertion order. -/
def ensureGroup (g : GroupedTrades) (i : String) : GroupedTrades :=
  match getGroup g i with
  | some _ => g
  | none => g ++ [(i, TradeBuckets.empty)]

/-- The winner-dedup key `` `${trade.openTimeRaw}_${trade.openPrice}` ``.
JS number stringification is injective and never contains `'_'`, so the
template string is injective in the pair; the key is modelled as the pair. -/
abbrev DedupKey := String × JNum

/-- The `winnersMap` JS `Map`, modelled as an insertion-ordered association
list with pairwise-distinct keys (a `Map.set` on an existing key keeps its
position; a new key is appended). -/
abbrev WinnersMap := List (DedupKey × Trade)

/-- `Map.get`. -/
def mapGet : WinnersMap → DedupKey → Option Trade
  | [], _ => none
  | e :: m, k => if e.1 = k then some e.2 else mapGet m k

/-- `Map.set`. -/
def mapSet : WinnersMap → DedupKey → Trade → WinnersMap
  | [], k, v => [(k, v)]
  | e :: m, k, v => if e.1 = k then (k, v) :: m else e :: mapSet m k v

def dedupKey (t : Trade) : DedupKey := (t.openTimeRaw, t.openPrice)

/-- Outcome of the classification test sequence. -/
inductive Outcome
  | winner
  | breakeven
  | loser
deriving DecidableEq, Repr

/-- The branch taken by the first pass of `classifyAndGroupTrades` for one
trade: `profit > tol`, else `profit >= -tol && profit <= tol`, else loser. -/
def classOf (tol : ℚ) (t : Trade) : Outcome :=
  if jgt t.profit (some tol) then .winner
  else if jge t.profit (some (-tol)) && jle t.profit (some tol) then .breakeven
  else .loser

/-- Effect of one first-pass iteration on `winnersMap`. -/
def winnersMapStep (tol : ℚ) (m : WinnersMap) (t : Trade) : WinnersMap :=
  if jgt t.profit (some tol) then
    match mapGet m (dedupKey t) with
    | none => mapSet m (dedupKey t) t
    | some w => if jgt t.profit w.profit then mapSet m (dedupKey t) t else m
  else m

/-- Effect of one first-pass iteration on `grouped`: ensure the group exists,
then push into the breakeven or losers bucket (winner candidates only touch
`winnersMap`). -/
def groupedStep (tol : ℚ) (g : GroupedTrades) (t : Trade) : GroupedTrades :=
  let g1 := ensureGroup g t.item
  match classOf tol t with
  | .winner => g1
  | .breakeven => modifyGroup g1 t.item (fun b => { b with breakeven := b.breakeven ++ [t] })
  | .loser => modifyGroup g1 t.item (fun b => { b with losers := b.losers ++ [t] })

/-- One iteration of the first-pass loop.  The loop body updates `grouped`
and `winnersMap` independently, so the step is the product of the two
component steps. -/
def classifyStep (tol : ℚ) (st : GroupedTrades × WinnersMap) (t : Trade) :
    GroupedTrades × WinnersMap :=
  (groupedStep tol st.1 t, winnersMapStep tol st.2 t)

/-- The `winnersMap` after the first pass. -/
def winnersMapOf (tol : ℚ) (ts : List Trade) : WinnersMap :=
  ts.foldl (winnersMapStep tol) []

/-- `grouped[winner.item].winners.push(winner)`.  The group always exists at
this point (every stored winner is an input trade, and the first pass created
its group); on an absent key the model leaves `grouped` unchanged where the
source would throw. -/
def pushWinner (g : GroupedTrades) (v : Trade) : GroupedTrades :=
  modifyGroup g v.item (fun b => { b with winners := b.winners ++ [v] })

/-- Second pass: append the surviving winners, in `winnersMap` insertion
order, to their instruments' winners buckets. -/
def addWinners (g : GroupedTrades) (m : WinnersMap) : GroupedTrades :=
  m.foldl (fun g e => pushWinner g e.2) g

/-! ## Timestamp reconciliation (`parseMT4DateToUTC`, `convertToPineScriptTimestamp`) -/

/-- MT4 server time is assumed to be UTC+3. -/
def MT4_UTC_OFFSET : Int := 3

/-- TradingView chart time is set to UTC-6. -/
def TV_UTC_OFFSET : Int := -6

/-- +2 hour correction for observed TradingView label placement. -/
def TV_DISPLAY_CORRECTION_HOURS : Int := 2

/-- ECMA-262 `DayFromYear`: days from 1970-01-01 to 1 January of year `y`. -/
def dayFromYear (y : Int) : Int :=
  365 * (y - 1970) + (y - 1969) / 4 - (y - 1901) / 100 + (y - 1601) / 400

/-- ECMA-262 leap-year test (`DaysInYear y = 366`). -/
def isLeapYear (y : Int) : Bool :=
  (y % 4 == 0 && y % 100 != 0) || y % 400 == 0

/-- Days before the start of 0-based month `m` in a common year. -/
def monthStartDays : List Int :=
  [0, 31, 59, 90, 120, 151, 181, 212, 243, 273, 304, 334]

/-- Days before the start of 0-based month `m` (ECMA `DayWithinYear` table). -/
def monthStart (m : Int) (leap : Bool) : Int :=
  monthStartDays.getD m.toNat 0 + (if leap && 2 ≤ m then 1 else 0)

/-- ECMA-262 `Date.UTC(y, m, d, h, min, s)` for integral arguments, in
seconds; `m` is the 0-based month argument.  Out-of-range month/day/time
fields roll over arithmetically exactly as `MakeDay`/`MakeTime` do, and a
year argument `0 ≤ y ≤ 99` is read as `1900 + y`. -/
def dateUTCSeconds (y m d h mi s : Int) : Int :=
  let yr := if 0 ≤ y ∧ y ≤ 99 then 1900 + y else y
  let ym := yr + m / 12
  let mn := m % 12
  (dayFromYear ym + monthStart mn (isLeapYear ym) + (d - 1)) * 86400
    + h * 3600 + mi * 60 + s

/-- ECMA `TimeClip`, in seconds: instants beyond ±8.64e15 ms are invalid. -/
def timeClipSeconds (t : Int) : Option Int :=
  if t.natAbs ≤ 8640000000000 then some t else none

/-- `Option ℚ → Option Int`: keep integral values only.  The numeric date
components of a report are whole numbers; a fractional component (possible
only for exotic inputs) is outside the model and mapped to invalid. -/
def toIntComponent : JNum → Option Int
  | some q => if q.den = 1 then some q.num else none
  | none => none

/-- Model of JS `String.prototype.split` with a one-character separator,
over character lists. -/
def splitChar (sep : Char) : List Char → List (List Char)
  | [] => [[]]
  | c :: cs =>
    if c = sep then [] :: splitChar sep cs
    else
      match splitChar sep cs with
      | g :: gs => (c :: g) :: gs
      | [] => [[c]]

/-- `s.split(sep)` for a one-character separator. -/
def jsSplit (s : String) (sep : Char) : List String :=
  (splitChar sep s.data).map (fun l => ⟨l⟩)

/-- The six numeric components of an MT4 date string. -/
structure MT4Fields where
  year : Int
  month : Int
  day : Int
  hours : Int
  minutes : Int
  seconds : Int
deriving DecidableEq, Repr

/-- The `split`/`Number` front end of `parseMT4DateToUTC`:
`dateStr.split(' ')` destructured into date and time parts, each split again
and converted with `Number`.  A string without `' '` leaves `timePart`
`undefined` and `timePart.split` throws a `TypeError`, modelled by
`.error ()`.  A missing or non-numeric component yields `NaN` arguments and
so an invalid date, modelled by `.ok none`. -/
def mt4Components (s : String) : Except Unit (Option MT4Fields) :=
  match jsSplit s ' ' with
  | datePart :: timePart :: _ =>
    .ok (match (jsSplit datePart '.').map jsNumber, (jsSplit timePart ':').map jsNumber with
      | y :: mo :: d :: _, h :: mi :: sec :: _ =>
        match toIntComponent y, toIntComponent mo, toIntComponent d,
              toIntComponent h, toIntComponent mi, toIntComponent sec with
        | some y', some mo', some d', some h', some mi', some sec' =>
          some ⟨y', mo', d', h', mi', sec'⟩
        | _, _, _, _, _, _ => none
      | _, _ => none)
  | _ => .error ()

/-- `parseMT4DateToUTC` from `tradeProcessor.ts`, as epoch seconds:
`Date.UTC(year, month - 1, day, hours, minutes, seconds)` followed by
`setUTCHours(getUTCHours() - MT4_UTC_OFFSET)` (i.e. subtracting exactly 3
hours, re-clipped).  `.error ()` is the `TypeError` on a spaceless string;
`.ok none` is an invalid date. -/
def parseMT4DateToUTC (s : String) : Except Unit (Option Int) :=
  (mt4Components s).map (fun c => c.bind (fun f =>
    (timeClipSeconds (dateUTCSeconds f.year (f.month - 1) f.day f.hours f.minutes f.seconds)).bind
      (fun t => timeClipSeconds (t - MT4_UTC_OFFSET * 3600))))

/-- Gregorian calendar fields of a day number (days since 1970-01-01), by
the standard era decomposition; models ECMA `YearFromTime` /
`MonthFromTime` / `DateFromTime`.  The month in the result is 1-based. -/
def civilFromDays (days : Int) : Int × Int × Int :=
  let z := days + 719468
  let era := z / 146097
  let doe := z - era * 146097
  let yoe := (doe - doe / 1460 + doe / 36524 - doe / 146096) / 365
  let y := yoe + era * 400
  let doy := doe - (365 * yoe + yoe / 4 - yoe / 100)
  let mp := (5 * doy + 2) / 153
  let d := doy - (153 * mp + 2) / 5 + 1
  let m := mp + (if mp < 10 then 3 else -9)
  (y + (if m ≤ 2 then 1 else 0), m, d)

/-- The timestamp tuple consumed by Pine Script's `timestamp()`
(`PineScriptTimestamp` in `types.ts`); `month` is 1-based. -/
structure PineScriptTimestamp where
  year : Int
  month : Int
  day : Int
  hours : Int
  minutes : Int
deriving DecidableEq, Repr

/-- The calendar fields `getUTCFullYear` / `getUTCMonth() + 1` /
`getUTCDate` / `getUTCHours` / `getUTCMinutes` of an epoch instant in
seconds. -/
def epochFields (t : Int) : PineScriptTimestamp :=
  let c := civilFromDays (t / 86400)
  { year := c.1, month := c.2.1, day := c.2.2,
    hours := t % 86400 / 3600, minutes := t % 3600 / 60 }

/-- `convertToPineScriptTimestamp` from `tradeProcessor.ts`: shift a valid
true-UTC instant by `TV_UTC_OFFSET + TV_DISPLAY_CORRECTION_HOURS` hours and
read off the display-frame calendar fields. -/
def convertToPineScriptTimestamp (t : Int) : PineScriptTimestamp :=
  let totalOffset := TV_UTC_OFFSET + TV_DISPLAY_CORRECTION_HOURS
  epochFields (t + totalOffset * 3600)

/-! ## The sort pass -/

/-- Whether evaluating the sort comparator on this trade throws (spaceless
`openTimeRaw`). -/
def timeCrashes (t : Trade) : Bool :=
  match parseMT4DateToUTC t.openTimeRaw with
  | .error _ => true
  | .ok _ => false

/-- Strict "comes earlier" for the comparator
`parseMT4DateToUTC(a.openTimeRaw).getTime() - parseMT4DateToUTC(b.openTimeRaw).getTime()`:
when both dates are valid, compare the instants; a `NaN` comparator value is
treated as `+0` by ES `SortCompare`, i.e. neither operand is earlier. -/
def ltTime (a b : Trade) : Bool :=
  match parseMT4DateToUTC a.openTimeRaw, parseMT4DateToUTC b.openTimeRaw with
  | .ok (some x), .ok (some y) => decide (x < y)
  | _, _ => false

/-- Insert keeping existing elements first among equals: the element being
inserted precedes exactly the elements strictly later than it. -/
def insertByTime (t : Trade) : List Trade → List Trade
  | [] => [t]
  | u :: us => if ltTime u t then u :: insertByTime t us else t :: u :: us

/-- Stable ascending sort — the unique stable order, which is what ES2019+
`Array.prototype.sort` produces for a consistent comparator. -/
def sortByTime : List Trade → List Trade
  | [] => []
  | t :: ts => insertByTime t (sortByTime ts)

/-- `bucket.sort(comparator)`: on a list of two or more elements every
element is passed to the comparator at least once, so the call throws exactly
when some element's `openTimeRaw` makes `parseMT4DateToUTC` throw; otherwise
it sorts stably. -/
def sortJS (l : List Trade) : Except Unit (List Trade) :=
  if 2 ≤ l.length && l.any timeCrashes then .error () else .ok (sortByTime l)

/-- Sort the three buckets of one group (winners, then breakeven, then
losers, as in the source). -/
def sortBuckets (b : TradeBuckets) : Except Unit TradeBuckets := do
  let w ← sortJS b.winners
  let be ← sortJS b.breakeven
  let lo ← sortJS b.losers
  return ⟨w, be, lo⟩

/-- The final `for (const item in grouped)` sort pass. -/
def sortGrouped : GroupedTrades → Except Unit GroupedTrades
  | [] => .ok []
  | p :: g => do
      let b ← sortBuckets p.2
      let rest ← sortGrouped g
      return (p.1, b) :: rest

/-- The grouped/deduplicated structure after the two passes, before the sort
pass. -/
def groupedBeforeSort (ts : List Trade) (tol : ℚ) : GroupedTrades :=
  let st := ts.foldl (classifyStep tol) ([], [])
  addWinners st.1 st.2

/-- `classifyAndGroupTrades` from `tradeProcessor.ts`.  `.error ()` models an
exception escaping from a sort comparator (caught by `processReport`). -/
def classifyAndGroupTrades (ts : List Trade) (tol : ℚ) :
    Except Unit GroupedTrades :=
  sortGrouped (groupedBeforeSort ts tol)

/-! ## Report parsing (`processReport`) -/

/-- A `table` element of the parsed document: its `textContent` and the
`td`-cell text contents of each `tr` row. -/
structure TableModel where
  text : String
  rows : List (List String)
deriving DecidableEq, Repr

/-- The three error kinds of `processReport` (§7 of the spec). -/
inductive ReportError
  | missingSection
  | emptyReport
  | malformed
deriving DecidableEq, Repr

/-- `cells.length > 0 && cells[0].textContent?.trim() === 'Closed Transactions:'`. -/
def isSentinelRow (r : List String) : Bool :=
  match r with
  | [] => false
  | c :: _ => jsTrim c == "Closed Transactions:"

/-- `cells.length > 0 && (cells[0]…includes('Open Trades:') || …includes('Closed P/L:'))`. -/
def isTerminatorRow (r : List String) : Bool :=
  match r with
  | [] => false
  | c :: _ => jsIncludes c "Open Trades:" || jsIncludes c "Closed P/L:"

/-- `cells.length === 14 && !isNaN(parseFloat(cells[0].textContent || ''))`. -/
def isTradeRow (r : List String) : Bool :=
  r.length == 14 && (jsParseFloat (r.headD "")).isSome

/-- JS `s || dflt` for strings: the empty string is falsy. -/
def emptyOr (s dflt : String) : String := if s == "" then dflt else s

/-- `replace(/ /g, '')`. -/
def stripSpaces (s : String) : String := ⟨s.data.filter (fun c => c ≠ ' ')⟩

/-- The fixed column-to-field mapping of an accepted 14-cell row. -/
def mkTrade (r : List String) : Trade :=
  { ticket := jsTrim (r.getD 0 "")
    openTimeRaw := jsTrim (r.getD 1 "")
    type := emptyOr (jsTrim (r.getD 2 "")) "unknown"
    size := jsParseFloat (emptyOr (jsTrim (r.getD 3 "")) "0")
    item := jsToLower (emptyOr (jsTrim (r.getD 4 "")) "unknown")
    openPrice := jsParseFloat (emptyOr (jsTrim (r.getD 5 "")) "0")
    closeTimeRaw := jsTrim (r.getD 8 "")
    closePrice := jsParseFloat (emptyOr (jsTrim (r.getD 9 "")) "0")
    profit := jsParseFloat (stripSpaces (emptyOr (r.getD 13 "") "0")) }

/-- The row-scanning loop of `processReport`: skip until (and including) the
sentinel row, then collect 14-column numeric-ticket rows until a terminator
row. -/
def collectRows : List (List String) → Bool → List Trade
  | [], _ => []
  | r :: rs, proc =>
    if isSentinelRow r then collectRows rs true
    else if !proc then collectRows rs false
    else if isTerminatorRow r then []
    else if isTradeRow r then mkTrade r :: collectRows rs proc
    else collectRows rs proc

/-- First table whose `textContent` contains `'Closed Transactions:'`. -/
def findMarkerTable (tables : List TableModel) : Option TableModel :=
  tables.find? (fun tb => jsIncludes tb.text "Closed Transactions:")

/-- `processReport` from `tradeProcessor.ts`, over the parsed document
(`DOMParser.parseFromString` is total, so the catch-all branch is reached
exactly when the body throws, i.e. when the sort pass throws). -/
def processReport (doc : List TableModel) (tol : ℚ) :
    Except ReportError GroupedTrades :=
  match findMarkerTable doc with
  | none => .error .missingSection
  | some tb =>
    let allTrades := collectRows tb.rows false
    if allTrades.isEmpty then .error .emptyReport
    else
      match classifyAndGroupTrades allTrades tol with
      | .ok g => .ok g
      | .error _ => .error .malformed

/-! ## Pine Script generation (`pineScriptGenerator.ts`)

The generator is modelled at the level of the drawing statements it emits:
each `label.new` / `line.new` call becomes one `PineStmt` carrying the
values interpolated into the call (string rendering of numbers is
environment functionality and is not modelled). -/

inductive PineColor
  | green
  | blue
  | red
  | white
deriving DecidableEq, Repr

inductive LabelStyle
  | diamond
  | circle
  | triangleup
  | triangledown
deriving DecidableEq, Repr

/-- The values interpolated into a tooltip string. -/
structure Tooltip where
  ticket : String
  timeRaw : String
  price : JNum
  profit : JNum
deriving DecidableEq, Repr

/-- One emitted drawing statement.  A `none` timestamp models the `NaN`
fields produced by an invalid date. -/
inductive PineStmt
  | labelNew (time : Option PineScriptTimestamp) (price : JNum)
      (style : LabelStyle) (color : PineColor) (tooltip : Tooltip)
  | lineNew (time1 : Option PineScriptTimestamp) (price1 : JNum)
      (time2 : Option PineScriptTimestamp) (price2 : JNum) (color : PineColor)
deriving DecidableEq, Repr

/-- The `toTimestamp` helper of `generatePineScript`. -/
def toTimestamp (s : String) : Except Unit (Option PineScriptTimestamp) :=
  (parseMT4DateToUTC s).map (Option.map convertToPineScriptTimestamp)

/-- The three label categories. -/
inductive TradeKind
  | winner
  | breakeven
  | loser
deriving DecidableEq, Repr

/-- The statements emitted for one trade by `generateLabels`. -/
def labelsFor (kind : TradeKind) (t : Trade) : Except Unit (List PineStmt) := do
  let openTs ← toTimestamp t.openTimeRaw
  match kind with
  | .winner => do
    let closeTs ← toTimestamp t.closeTimeRaw
    return [.labelNew openTs t.openPrice .diamond .green
              ⟨t.ticket, t.openTimeRaw, t.openPrice, t.profit⟩,
            .labelNew closeTs t.closePrice .diamond .green
              ⟨t.ticket, t.closeTimeRaw, t.closePrice, t.profit⟩,
            .lineNew openTs t.openPrice closeTs t.closePrice .white]
  | .breakeven =>
    return [.labelNew openTs t.openPrice .circle .blue
              ⟨t.ticket, t.openTimeRaw, t.openPrice, t.profit⟩]
  | .loser =>
    let style := if t.type == "buy" then LabelStyle.triangleup else LabelStyle.triangledown
    return [.labelNew openTs t.openPrice style .red
              ⟨t.ticket, t.openTimeRaw, t.openPrice, t.profit⟩]

/-- `generateLabels` over a bucket: per-trade statement blocks concatenated
in order (`trades.map(...).join('')`), evaluated left to right so the first
throwing trade propagates. -/
def generateLabels (ts : List Trade) (kind : TradeKind) :
    Except Unit (List PineStmt) :=
  match ts with
  | [] => .ok []
  | t :: rest => do
    let s ← labelsFor kind t
    let r ← generateLabels rest kind
    return s ++ r

/-- The generated script: the indicator title and the drawing statements of
the guarded one-time draw block, winners then breakeven then losers. -/
structure PineScript where
  title : String
  stmts : List PineStmt
deriving DecidableEq, Repr

/-- `generatePineScript` from `pineScriptGenerator.ts`, abstracted to title
and drawing statements. -/
def generatePineScript (item : String) (data : TradeBuckets) :
    Except Unit PineScript := do
  let w ← generateLabels data.winners .winner
  let be ← generateLabels data.breakeven .breakeven
  let lo ← generateLabels data.losers .loser
  return ⟨"MT4 Trades: " ++ jsToUpper item, w ++ be ++ lo⟩

/-- Number of `label.new` calls in a statement list. -/
def countLabelNew (ss : List PineStmt) : Nat :=
  (ss.filter (fun s => match s with | .labelNew .. => true | _ => false)).length

/-- Number of `line.new` calls in a statement list. -/
def countLineNew (ss : List PineStmt) : Nat :=
  (ss.filter (fun s => match s with | .lineNew .. => true | _ => false)).length

/-- The color arguments of the `label.new` calls, in order. -/
def labelColors (ss : List PineStmt) : List PineColor :=
  ss.filterMap (fun s => match s with | .labelNew _ _ _ c _ => some c | _ => none)

/-- The style arguments of the `label.new` calls, in order. -/
def labelStyles (ss : List PineStmt) : List LabelStyle :=
  ss.filterMap (fun s => match s with | .labelNew _ _ st _ _ => some st | _ => none)

/-! ## Helper notions used by the statements -/

/-- Winner-candidate test: `trade.profit > beTolerance`. -/
def isWinnerCand (tol : ℚ) (t : Trade) : Bool := jgt t.profit (some tol)

/-- "Best so far" among candidates sharing one dedup key: the current
survivor is replaced exactly when the new candidate's profit is strictly
greater. -/
def bestOf (acc : Option Trade) (t : Trade) : Option Trade :=
  match acc with
  | none => some t
  | some w => if jgt t.profit w.profit then some t else acc

/-- The winner candidates of `ts` carrying dedup key `k`, in input order. -/
def keyCandidates (tol : ℚ) (ts : List Trade) (k : DedupKey) : List Trade :=
  ts.filter (fun t => isWinnerCand tol t && decide (dedupKey t = k))

/-- The stored trades of the winners map, in insertion order. -/
def mapValues (m : WinnersMap) : List Trade := m.map Prod.snd

/-- The keys of the winners map, in insertion order. -/
def mapKeys (m : WinnersMap) : List DedupKey := m.map Prod.fst

/-- Where the first pass puts one trade inside its group's bucket record. -/
def bucketPush (o : Outcome) (t : Trade) (b : TradeBuckets) : TradeBuckets :=
  match o with
  | .winner => b
  | .breakeven => { b with breakeven := b.breakeven ++ [t] }
  | .loser => { b with losers := b.losers ++ [t] }

/-- The breakeven trades of instrument `j`, in input order. -/
def beFilter (tol : ℚ) (j : String) (ts : List Trade) : List Trade :=
  ts.filter (fun t => decide (t.item = j) && decide (classOf tol t = .breakeven))

/-- The loser trades of instrument `j`, in input order. -/
def loFilter (tol : ℚ) (j : String) (ts : List Trade) : List Trade :=
  ts.filter (fun t => decide (t.item = j) && decide (classOf tol t = .loser))

/-- The cumulative first-pass effect on one group's buckets. -/
def bucketAppend (tol : ℚ) (j : String) (ts : List Trade) (b : TradeBuckets) :
    TradeBuckets :=
  ⟨b.winners, b.breakeven ++ beFilter tol j ts, b.losers ++ loFilter tol j ts⟩

/-- The sort of one group's buckets in the crash-free case. -/
def sortBucketsNoCrash (b : TradeBuckets) : TradeBuckets :=
  ⟨sortByTime b.winners, sortByTime b.breakeven, sortByTime b.losers⟩

/-- "Not later": whenever both open times parse to valid instants, the first
is at most the second. -/
def timeLE (a b : Trade) : Prop :=
  ∀ x y, parseMT4DateToUTC a.openTimeRaw = .ok (some x) →
    parseMT4DateToUTC b.openTimeRaw = .ok (some y) → x ≤ y

/-- Whether a trade's open time parses to exactly the valid instant `c`. -/
def keyIs (t : Trade) (c : Int) : Bool :=
  decide (parseMT4DateToUTC t.openTimeRaw = .ok (some c))

/-- The rows strictly after the first sentinel row (all rows before it,
and the sentinel itself, are skipped). -/
def rowsAfterSentinel (rows : List (List String)) : List (List String) :=
  match rows.dropWhile (fun r => !isSentinelRow r) with
  | [] => []
  | _ :: rest => rest

/-- The rows accepted as trade records: after the sentinel, before the first
terminator, with 14 columns and a numeric first column. -/
def acceptedRows (rows : List (List String)) : List (List String) :=
  ((rowsAfterSentinel rows).takeWhile (fun r => !isTerminatorRow r)).filter isTradeRow

/-! ### Concrete sample trades and rows for the concrete evaluations -/

/-- A winner candidate with profit 50. -/
def tradeP50 : Trade :=
  ⟨"1", "2025.06.25 16:09:01", "buy", some 1, "eurusd", some 1,
    "2025.06.25 17:09:01", some 2, some 50⟩

/-- A winner candidate sharing `tradeP50`'s dedup key, with profit 80. -/
def tradeP80 : Trade :=
  ⟨"2", "2025.06.25 16:09:01", "sell", some 1, "eurusd", some 1,
    "2025.06.25 18:09:01", some 2, some 80⟩

/-- A eurusd winner candidate (profit 50). -/
def tradeEU : Trade :=
  ⟨"3", "2025.06.25 16:09:01", "buy", some 1, "eurusd", some 1,
    "2025.06.25 17:09:01", some 2, some 50⟩

/-- A gbpusd winner candidate with the same `(openTimeRaw, openPrice)` dedup
key as `tradeEU` but a different instrument (profit 80). -/
def tradeGB : Trade :=
  ⟨"4", "2025.06.25 16:09:01", "buy", some 1, "gbpusd", some 1,
    "2025.06.25 17:09:01", some 2, some 80⟩

/-- A duplicated-key eurusd winner candidate (profit 50). -/
def dupTradeA : Trade :=
  ⟨"5", "2025.06.25 16:09:01", "buy", some 1, "eurusd", some 1,
    "2025.06.25 17:09:01", some 2, some 50⟩

/-- A second eurusd winner candidate with `dupTradeA`'s dedup key
(profit 80). -/
def dupTradeB : Trade :=
  ⟨"6", "2025.06.25 16:09:01", "sell", some 1, "eurusd", some 1,
    "2025.06.25 18:09:01", some 2, some 80⟩

/-- A eurusd loser trade (profit −10), opened 2025-06-25. -/
def loserT1 : Trade :=
  ⟨"7", "2025.06.25 16:09:01", "buy", some 1, "eurusd", some 1,
    "2025.06.25 17:09:01", some 1, some (-10)⟩

/-- A eurusd loser trade (profit −5), opened earlier (2025-06-24). -/
def loserT2 : Trade :=
  ⟨"8", "2025.06.24 10:00:00", "sell", some 1, "eurusd", some 1,
    "2025.06.24 11:00:00", some 1, some (-5)⟩

/-- A breakeven trade (profit 0). -/
def beTrade : Trade :=
  ⟨"9", "2025.06.25 12:00:00", "buy", some 1, "eurusd", some 1,
    "2025.06.25 12:30:00", some 1, some 0⟩

/-- A well-formed 14-cell report row. -/
def sampleRow : List String :=
  ["1", "2025.06.25 16:09:01", "buy", "0.5", "EURUSD", "1.1", "", "",
    "2025.06.25 17:09:01", "1.2", "", "", "", "50"]

/-- A 14-cell report row whose size cell is non-empty but unparsable. -/
def badCellRow : List String :=
  ["1", "2025.06.25 16:09:01", "buy", "abc", "EURUSD", "1.1", "", "",
    "2025.06.25 17:09:01", "1.2", "", "", "", "50"]

/-- Rows of a minimal closed-transactions table: sentinel, one trade row,
terminator. -/
def sampleRows : List (List String) :=
  [["Closed Transactions:"], sampleRow, ["Open Trades:"]]

/-- A minimal closed-transactions table. -/
def sampleTable : TableModel := ⟨"Closed Transactions:", sampleRows⟩

/-- The script generated for the buckets `⟨[tradeP50], [beTrade], [loserT1]⟩`. -/
def samplePine : PineScript :=
  ⟨"MT4 Trades: EURUSD",
   [.labelNew (some ⟨2025, 6, 25, 9, 9⟩) (some 1) .diamond .green
      ⟨"1", "2025.06.25 16:09:01", some 1, some 50⟩,
    .labelNew (some ⟨2025, 6, 25, 10, 9⟩) (some 2) .diamond .green
      ⟨"1", "2025.06.25 17:09:01", some 2, some 50⟩,
    .lineNew (some ⟨2025, 6, 25, 9, 9⟩) (some 1)
      (some ⟨2025, 6, 25, 10, 9⟩) (some 2) .white,
    .labelNew (some ⟨2025, 6, 25, 5, 0⟩) (some 1) .circle .blue
      ⟨"9", "2025.06.25 12:00:00", some 1, some 0⟩,
    .labelNew (some ⟨2025, 6, 25, 9, 9⟩) (some 1) .triangleup .red
      ⟨"7", "2025.06.25 16:09:01", some 1, some (-10)⟩]⟩

/-! ## Reference calendar, built from the spec's words (§4.3): the "named
calendar instant" of a `YYYY.MM.DD HH:MM:SS` date, as a proleptic-Gregorian
UTC epoch count, defined by direct summation of year and month lengths. -/

/-- Modelled from the spec: the Gregorian leap-year rule. -/
def specLeapYear (y : Int) : Bool :=
  decide ((4 ∣ y ∧ ¬(100 ∣ y)) ∨ 400 ∣ y)

/-- Modelled from the spec: length of calendar year `y` in days. -/
def specYearDays (y : Int) : Int := if specLeapYear y then 366 else 365

/-- Modelled from the spec: days from 1970-01-01 to 1 January of year
`1970 + n`. -/
def specDaysUp : ℕ → Int
  | 0 => 0
  | n + 1 => specDaysUp n + specYearDays (1970 + n)

/-- Modelled from the spec: days from 1 January of year `1970 - n` to
1970-01-01. -/
def specDaysDown : ℕ → Int
  | 0 => 0
  | n + 1 => specDaysDown n + specYearDays (1969 - n)

/-- Modelled from the spec: signed days from 1970-01-01 to 1 January of
year `y`. -/
def specDaysToYear (y : Int) : Int :=
  if 1970 ≤ y then specDaysUp (y - 1970).toNat else -specDaysDown (1970 - y).toNat

/-- Modelled from the spec: the Gregorian month lengths. -/
def specMonthLengths (leap : Bool) : List Int :=
  [31, if leap then 29 else 28, 31, 30, 31, 30, 31, 31, 30, 31, 30, 31]

/-- Modelled from the spec: days in a year before the start of 1-based
month `mo`. -/
def specDaysBeforeMonth (mo : Int) (leap : Bool) : Int :=
  ((specMonthLengths leap).take (mo - 1).toNat).sum

/-- Modelled from the spec: the named calendar instant `y-mo-d h:mi:s`
(month 1-based), in epoch seconds. -/
def namedCalendarInstant (y mo d h mi s : Int) : Int :=
  (specDaysToYear y + specDaysBeforeMonth mo (specLeapYear y) + (d - 1)) * 86400
    + h * 3600 + mi * 60 + s

/-! ## The ECMA day count agrees with the reference calendar -/

lemma isLeapYear_eq_spec (y : Int) : isLeapYear y = specLeapYear y := by
  rw [Bool.eq_iff_iff]
  simp only [isLeapYear, specLeapYear, Bool.or_eq_true, Bool.and_eq_true, beq_iff_eq,
    bne_iff_ne, decide_eq_true_eq, Int.dvd_iff_emod_eq_zero]

lemma dayFromYear_add_one (y : Int) :
    dayFromYear (y + 1) = dayFromYear y + specYearDays y := by
  have h : specYearDays y = if (4 ∣ y ∧ ¬(100 ∣ y)) ∨ 400 ∣ y then 366 else 365 := by
    simp [specYearDays, specLeapYear]
  rw [h]
  simp only [dayFromYear]
  split <;> omega

lemma dayFromYear_spec_up (n : ℕ) : dayFromYear (1970 + n) = specDaysUp n := by
  induction n with
  | zero => decide
  | succ n ih =>
    have h : (1970 + ((n + 1 : ℕ) : Int)) = (1970 + n) + 1 := by push_cast; ring
    rw [h, dayFromYear_add_one, ih]
    rfl

lemma dayFromYear_spec_down (n : ℕ) : dayFromYear (1970 - n) = -specDaysDown n := by
  induction n with
  | zero => decide
  | succ n ih =>
    have h := dayFromYear_add_one (1969 - n)
    have h2 : (1969 - (n : Int)) + 1 = 1970 - n := by ring
    rw [h2] at h
    have h3 : (1970 - ((n + 1 : ℕ) : Int)) = 1969 - n := by push_cast; ring
    have h4 : specDaysDown (n + 1) = specDaysDown n + specYearDays (1969 - n) := rfl
    rw [h3]
    omega

lemma dayFromYear_eq_spec (y : Int) : dayFromYear y = specDaysToYear y := by
  simp only [specDaysToYear]
  split
  · have h : (1970 + (((y - 1970).toNat : ℕ) : Int)) = y := by omega
    have hu := dayFromYear_spec_up (y - 1970).toNat
    rw [h] at hu
    exact hu
  · have h : (1970 - (((1970 - y).toNat : ℕ) : Int)) = y := by omega
    have hd := dayFromYear_spec_down (1970 - y).toNat
    rw [h] at hd
    exact hd

lemma monthStart_eq_spec (mo : Int) (h1 : 1 ≤ mo) (h2 : mo ≤ 12) (leap : Bool) :
    monthStart (mo - 1) leap = specDaysBeforeMonth mo leap := by
  interval_cases mo <;> cases leap <;> decide

/-- For a year ≥ 100 (no two-digit-year remapping) and an in-range month,
`Date.UTC` computes exactly the reference named calendar instant. -/
lemma dateUTCSeconds_eq_named (y mo d h mi s : Int) (hy : 100 ≤ y)
    (h1 : 1 ≤ mo) (h2 : mo ≤ 12) :
    dateUTCSeconds y (mo - 1) d h mi s = namedCalendarInstant y mo d h mi s := by
  have hyr : ¬(0 ≤ y ∧ y ≤ 99) := by omega
  have hdiv : (mo - 1) / 12 = 0 := by omega
  have hmod : (mo - 1) % 12 = mo - 1 := by omega
  simp only [dateUTCSeconds, namedCalendarInstant, if_neg hyr, hdiv, hmod, add_zero]
  rw [dayFromYear_eq_spec, monthStart_eq_spec mo h1 h2, isLeapYear_eq_spec]

/-- **C5** (amended).  (1) `parseMT4DateToUTC` on a well-formed
`YYYY.MM.DD HH:MM:SS` string — month field in 1–12, year field at least 100
(JS `Date.UTC` remaps years 0–99 to `1900 + y`), instant within the
`Date`-representable range — yields the named calendar instant minus exactly
3 hours.  (2) `convertToPineScriptTimestamp` on any UTC instant yields the
calendar fields of that instant shifted by a net −4 hours (−6 display offset
plus +2 correction).  (3) The composition maps `"2025.06.25 16:09:01"` to
true UTC `2025-06-25T13:09:01Z` and to the display tuple
`(2025, 6, 25, 9, 9)`. -/
theorem timestamp_reconciler_correct :
    (∀ (str : String) (f : MT4Fields),
        mt4Components str = .ok (some f) →
        100 ≤ f.year → 1 ≤ f.month → f.month ≤ 12 →
        (namedCalendarInstant f.year f.month f.day f.hours f.minutes
          f.seconds).natAbs ≤ 8640000000000 →
        (namedCalendarInstant f.year f.month f.day f.hours f.minutes f.seconds
          - 3 * 3600).natAbs ≤ 8640000000000 →
        parseMT4DateToUTC str =
          .ok (some (namedCalendarInstant f.year f.month f.day f.hours
            f.minutes f.seconds - 3 * 3600))) ∧
    (∀ t : Int, convertToPineScriptTimestamp t = epochFields (t - 4 * 3600)) ∧
    (parseMT4DateToUTC "2025.06.25 16:09:01" = .ok (some 1750856941) ∧
      (1750856941 : Int) = namedCalendarInstant 2025 6 25 13 9 1 ∧
      convertToPineScriptTimestamp 1750856941 = ⟨2025, 6, 25, 9, 9⟩) := by
  refine ⟨?_, ?_, by decide, by decide, by decide⟩
  · intro str f hcomp hy h1 h2 hb1 hb2
    simp only [parseMT4DateToUTC, hcomp, Except.map, MT4_UTC_OFFSET, Option.some_bind]
    rw [dateUTCSeconds_eq_named f.year f.month f.day f.hours f.minutes f.seconds hy h1 h2]
    simp only [timeClipSeconds, if_pos hb1, Option.some_bind, if_pos hb2]
  · intro t
    have h : t + (TV_UTC_OFFSET + TV_DISPLAY_CORRECTION_HOURS) * 3600 = t - 4 * 3600 := by
      simp only [TV_UTC_OFFSET, TV_DISPLAY_CORRECTION_HOURS]; ring
    simp only [convertToPineScriptTimestamp, h]

/-- Witness for C5 at the spec's round-trip example string. -/
theorem timestamp_reconciler_correct_witness :
    parseMT4DateToUTC "2025.06.25 16:09:01" =
      .ok (some (namedCalendarInstant 2025 6 25 16 9 1 - 3 * 3600)) :=
  timestamp_reconciler_correct.1 "2025.06.25 16:09:01" ⟨2025, 6, 25, 16, 9, 1⟩
    (by decide) (by decide) (by decide) (by decide) (by decide) (by decide)

/-- **C5** counterexample: the claim as stated (over every well-formed
`YYYY.MM.DD HH:MM:SS` string) fails for four-digit year fields below 0100,
because `Date.UTC` reads a year argument 0–99 as `1900 + y`:
`"0099.01.01 12:00:00"` parses to the 1999 instant, not to the year-99 named
instant minus 3 hours. -/
lemma specDaysDown_ge (n : ℕ) : 365 * (n : Int) ≤ specDaysDown n := by
  induction n with
  | zero => simp [specDaysDown]
  | succ n ih =>
    have h : 365 ≤ specYearDays (1969 - n) := by
      simp only [specYearDays]; split <;> omega
    have h2 : specDaysDown (n + 1) = specDaysDown n + specYearDays (1969 - n) := rfl
    push_cast
    omega

theorem parse_twoDigitYear_cex :
    parseMT4DateToUTC "0099.01.01 12:00:00" = .ok (some 915181200) ∧
    parseMT4DateToUTC "0099.01.01 12:00:00" ≠
      .ok (some (namedCalendarInstant 99 1 1 12 0 0 - 3 * 3600)) := by
  have hval : parseMT4DateToUTC "0099.01.01 12:00:00" = .ok (some 915181200) := by decide
  refine ⟨hval, ?_⟩
  have h1 := specDaysDown_ge 1871
  have h2 : specDaysToYear 99 = -specDaysDown 1871 := rfl
  have h3 : namedCalendarInstant 99 1 1 12 0 0 =
      (specDaysToYear 99 + specDaysBeforeMonth 1 (specLeapYear 99) + (1 - 1)) * 86400
        + 12 * 3600 + 0 * 60 + 0 := rfl
  have h4 : specDaysBeforeMonth 1 (specLeapYear 99) = 0 := by decide
  intro hc
  rw [hval] at hc
  simp only [Except.ok.injEq, Option.some.injEq] at hc
  omega

/-! ## Classification boundaries -/

/-- **C3**: for every tolerance `τ ≥ 0` and every trade (whose profit is a
decimal value, per the data model), the classification branch matches the
reference definition: winner iff `profit > τ`, breakeven iff
`−τ ≤ profit ≤ τ` (both boundaries inclusive), loser iff `profit < −τ`. -/
theorem classification_boundaries (tol : ℚ) (t : Trade) (p : ℚ)
    (htol : 0 ≤ tol) (hp : t.profit = some p) :
    (classOf tol t = .winner ↔ tol < p) ∧
    (classOf tol t = .breakeven ↔ -tol ≤ p ∧ p ≤ tol) ∧
    (classOf tol t = .loser ↔ p < -tol) := by
  have hw : jgt t.profit (some tol) = decide (tol < p) := by rw [hp]; rfl
  have hge : jge t.profit (some (-tol)) = decide (-tol ≤ p) := by rw [hp]; rfl
  have hle : jle t.profit (some tol) = decide (p ≤ tol) := by rw [hp]; rfl
  simp only [classOf, hw, hge, hle, Bool.and_eq_true, decide_eq_true_eq]
  split_ifs with h1 h2
  · exact ⟨iff_of_true rfl h1,
      iff_of_false (by decide) (fun hc => absurd h1 (by linarith [hc.2])),
      iff_of_false (by decide) (fun hc => absurd h1 (by linarith))⟩
  · exact ⟨iff_of_false (by decide) (fun hc => h1 hc),
      iff_of_true rfl h2,
      iff_of_false (by decide) (fun hc => absurd hc (by linarith [h2.1]))⟩
  · have hlt : p < -tol := by
      rcases not_and_or.mp h2 with h | h
      · linarith [not_le.mp h]
      · exact absurd (by linarith [not_lt.mp h1] : p ≤ tol) h
    exact ⟨iff_of_false (by decide) (fun hc => h1 hc),
      iff_of_false (by decide) (fun hc => h2 hc),
      iff_of_true rfl hlt⟩

/-- Witness for C3: with `τ = 1`, a trade with `profit = 1` sits on the
boundary and is classified breakeven. -/
theorem classification_boundaries_witness :
    classOf 1 ⟨"1", "t", "buy", some 1, "eurusd", some 1, "t", some 1, some 1⟩ =
      .breakeven :=
  ((classification_boundaries 1
      ⟨"1", "t", "buy", some 1, "eurusd", some 1, "t", some 1, some 1⟩ 1
      (by norm_num) (by decide)).2.1).mpr
    (by constructor <;> norm_num)

/-! ## Winner deduplication -/

lemma jgt_isSome_left {a b : JNum} (h : jgt a b = true) : a.isSome = true := by
  cases a <;> cases b <;> simp [jgt] at h ⊢

lemma jgt_trans {a b c : JNum} (h1 : jgt a b = true) (h2 : jgt b c = true) :
    jgt a c = true := by
  cases a <;> cases b <;> cases c <;> simp [jgt] at h1 h2 ⊢
  linarith

lemma jgt_of_jgt_of_not_jgt {a b c : JNum} (hb : b.isSome = true)
    (h1 : jgt a c = true) (h2 : jgt b c = false) : jgt a b = true := by
  cases a <;> cases b <;> cases c <;> simp [jgt] at h1 h2 hb ⊢
  linarith

lemma classOf_winner_iff (tol : ℚ) (t : Trade) :
    classOf tol t = .winner ↔ isWinnerCand tol t = true := by
  unfold classOf isWinnerCand
  split_ifs with h1 h2 <;> simp [h1]

lemma mapGet_mapSet (m : WinnersMap) (k k' : DedupKey) (v : Trade) :
    mapGet (mapSet m k v) k' = if k = k' then some v else mapGet m k' := by
  induction m with
  | nil => simp [mapSet, mapGet]
  | cons e m ih =>
    simp only [mapSet]
    by_cases he : e.1 = k
    · rw [if_pos he]
      by_cases hk : k = k'
      · simp [mapGet, hk]
      · simp [mapGet, hk, he, fun hc => hk (he ▸ hc)]
    · rw [if_neg he]
      by_cases he' : e.1 = k'
      · have : ¬k = k' := fun hc => he (hc ▸ he')
        simp [mapGet, he', this]
      · simp [mapGet, he', ih]

lemma mapGet_winnersMapStep (tol : ℚ) (m : WinnersMap) (t : Trade) (k : DedupKey) :
    mapGet (winnersMapStep tol m t) k =
      if isWinnerCand tol t = true ∧ dedupKey t = k then bestOf (mapGet m k) t
      else mapGet m k := by
  unfold winnersMapStep
  by_cases hc : jgt t.profit (some tol) = true
  · rw [if_pos hc]
    by_cases hk : dedupKey t = k
    · subst hk
      cases hget : mapGet m (dedupKey t) with
      | none => simp [mapGet_mapSet, bestOf, hget, isWinnerCand, hc]
      | some w =>
        by_cases hj : jgt t.profit w.profit = true
        · simp [hj, mapGet_mapSet, bestOf, hget, isWinnerCand, hc]
        · simp only [hj, Bool.false_eq_true, if_false]
          simp [bestOf, hget, hj, isWinnerCand, hc]
    · cases hget : mapGet m (dedupKey t) with
      | none => simp [mapGet_mapSet, hk, isWinnerCand]
      | some w =>
        by_cases hj : jgt t.profit w.profit = true
        · simp [hj, mapGet_mapSet, hk, isWinnerCand]
        · simp [hj, hk, isWinnerCand]
  · rw [if_neg hc]
    simp [isWinnerCand, hc]

lemma winnersMap_foldl (tol : ℚ) (ts : List Trade) (m : WinnersMap) (k : DedupKey) :
    mapGet (ts.foldl (winnersMapStep tol) m) k =
      (keyCandidates tol ts k).foldl bestOf (mapGet m k) := by
  induction ts generalizing m with
  | nil => simp [keyCandidates]
  | cons t ts ih =>
    simp only [List.foldl_cons, keyCandidates, List.filter_cons]
    by_cases h : isWinnerCand tol t = true ∧ dedupKey t = k
    · have hb : (isWinnerCand tol t && decide (dedupKey t = k)) = true := by
        simp [h.1, h.2]
      rw [hb]
      simp only [List.foldl_cons]
      rw [ih, mapGet_winnersMapStep, if_pos h]
      rfl
    · have hb : (isWinnerCand tol t && decide (dedupKey t = k)) = false := by
        rcases not_and_or.mp h with h' | h' <;> simp [h']
      rw [hb]
      simp only [Bool.false_eq_true, if_false]
      rw [ih, mapGet_winnersMapStep, if_neg h]
      rfl

lemma mapGet_winnersMapOf (tol : ℚ) (ts : List Trade) (k : DedupKey) :
    mapGet (winnersMapOf tol ts) k = (keyCandidates tol ts k).foldl bestOf none := by
  unfold winnersMapOf
  rw [winnersMap_foldl]
  rfl

lemma keyCandidates_profit_isSome (tol : ℚ) (ts : List Trade) (k : DedupKey)
    (u : Trade) (hu : u ∈ keyCandidates tol ts k) : (u.profit).isSome = true := by
  have hmem := List.of_mem_filter hu
  have hc : isWinnerCand tol u = true := by
    simp only [Bool.and_eq_true, decide_eq_true_eq] at hmem
    exact hmem.1
  exact jgt_isSome_left hc

lemma foldl_bestOf_isSome (l : List Trade) (v : Trade) :
    ∃ v', l.foldl bestOf (some v) = some v' := by
  induction l generalizing v with
  | nil => exact ⟨v, rfl⟩
  | cons t l ih =>
    simp only [List.foldl_cons, bestOf]
    by_cases hj : jgt t.profit v.profit = true
    · rw [if_pos hj]; exact ih t
    · rw [if_neg hj]; exact ih v

lemma foldl_bestOf_char (l : List Trade) (v v' : Trade)
    (hl : ∀ u ∈ l, (u.profit).isSome = true)
    (h : l.foldl bestOf (some v) = some v') :
    (v' = v ∧ ∀ u ∈ l, jgt u.profit v.profit = false) ∨
    (∃ l1 l2, l = l1 ++ v' :: l2 ∧ jgt v'.profit v.profit = true ∧
      (∀ u ∈ l1, jgt v'.profit u.profit = true) ∧
      (∀ u ∈ l2, jgt u.profit v'.profit = false)) := by
  induction l generalizing v with
  | nil =>
    simp only [List.foldl_nil, Option.some.injEq] at h
    exact Or.inl ⟨h.symm, by simp⟩
  | cons t l ih =>
    have hl' : ∀ u ∈ l, (u.profit).isSome = true := fun u hu => hl u (by simp [hu])
    have hts : (t.profit).isSome = true := hl t (by simp)
    simp only [List.foldl_cons, bestOf] at h
    by_cases hj : jgt t.profit v.profit = true
    · rw [if_pos hj] at h
      rcases ih t hl' h with ⟨rfl, hall⟩ | ⟨l1, l2, heq, hgt, hl1, hl2⟩
      · exact Or.inr ⟨[], l, by simp, hj, by simp, hall⟩
      · refine Or.inr ⟨t :: l1, l2, by simp [heq], jgt_trans hgt hj, ?_, hl2⟩
        intro u hu
        rcases List.mem_cons.mp hu with rfl | hu
        · exact hgt
        · exact hl1 u hu
    · rw [if_neg hj] at h
      have hjf : jgt t.profit v.profit = false := by
        cases hval : jgt t.profit v.profit
        · rfl
        · exact absurd hval hj
      rcases ih v hl' h with ⟨rfl, hall⟩ | ⟨l1, l2, heq, hgt, hl1, hl2⟩
      · refine Or.inl ⟨rfl, ?_⟩
        intro u hu
        rcases List.mem_cons.mp hu with rfl | hu
        · exact hjf
        · exact hall u hu
      · refine Or.inr ⟨t :: l1, l2, by simp [heq], hgt, ?_, hl2⟩
        intro u hu
        rcases List.mem_cons.mp hu with rfl | hu
        · exact jgt_of_jgt_of_not_jgt hts hgt hjf
        · exact hl1 u hu

/-- **C4**: among winner candidates sharing a dedup key, exactly one
survives: there is a surviving entry iff there is a candidate, the survivor
splits the candidate list so that every earlier candidate has strictly
smaller profit and no later candidate has strictly greater profit (i.e. the
first candidate attaining the maximum survives — strictly-greater profit
replaces, ties keep the earlier); in particular for two candidates with
identical key and profits 50 and 80, the winners bucket keeps the one with
profit 80. -/
theorem winner_dedup_best (tol : ℚ) (ts : List Trade) (k : DedupKey) :
    ((mapGet (winnersMapOf tol ts) k).isSome = true ↔ keyCandidates tol ts k ≠ []) ∧
    (∀ v, mapGet (winnersMapOf tol ts) k = some v →
      ∃ l1 l2, keyCandidates tol ts k = l1 ++ v :: l2 ∧
        (∀ u ∈ l1, jgt v.profit u.profit = true) ∧
        (∀ u ∈ l2, jgt u.profit v.profit = false)) ∧
    classifyAndGroupTrades [tradeP50, tradeP80] 0 =
      .ok [("eurusd", ⟨[tradeP80], [], []⟩)] := by
  refine ⟨?_, ?_, by decide⟩
  · rw [mapGet_winnersMapOf]
    cases hc : keyCandidates tol ts k with
    | nil => simp
    | cons c rest =>
      simp only [List.foldl_cons, bestOf, ne_eq, reduceCtorEq, not_false_iff, iff_true]
      have hs : ∀ u ∈ rest, (u.profit).isSome = true := by
        intro u hu
        exact keyCandidates_profit_isSome tol ts k u (by rw [hc]; simp [hu])
      rcases hr : rest.foldl bestOf (some c) with _ | v
      · exfalso
        rcases foldl_bestOf_isSome rest c with ⟨v', hv'⟩
        rw [hv'] at hr
        cases hr
      · simp
  · intro v hv
    rw [mapGet_winnersMapOf] at hv
    have hs : ∀ u ∈ keyCandidates tol ts k, (u.profit).isSome = true :=
      fun u hu => keyCandidates_profit_isSome tol ts k u hu
    cases hc : keyCandidates tol ts k with
    | nil => rw [hc] at hv; cases hv
    | cons c rest =>
      rw [hc] at hv
      simp only [List.foldl_cons, bestOf] at hv
      have hs' : ∀ u ∈ rest, (u.profit).isSome = true := by
        intro u hu
        exact hs u (by rw [hc]; simp [hu])
      rcases foldl_bestOf_char rest c v hs' hv with ⟨rfl, hall⟩ | ⟨l1, l2, heq, hgt, hl1, hl2⟩
      · exact ⟨[], rest, by simp, by simp, hall⟩
      · refine ⟨c :: l1, l2, by simp [heq], ?_, hl2⟩
        intro u hu
        rcases List.mem_cons.mp hu with rfl | hu
        · exact hgt
        · exact hl1 u hu

/-- Witness for C4 at the spec's 50/80 example: the stored survivor for the
shared key is the profit-80 candidate, splitting the candidate list with the
profit-50 candidate strictly below it. -/
theorem winner_dedup_best_witness :
    ∃ l1 l2, keyCandidates 0 [tradeP50, tradeP80] (dedupKey tradeP50) =
        l1 ++ tradeP80 :: l2 ∧
      (∀ u ∈ l1, jgt tradeP80.profit u.profit = true) ∧
      (∀ u ∈ l2, jgt u.profit tradeP80.profit = false) :=
  (winner_dedup_best 0 [tradeP50, tradeP80] (dedupKey tradeP50)).2.1 tradeP80
    (by decide)

/-! ## Cross-instrument winner dedup -/

/-- **C2** (amended): when two winner candidates share the dedup key but
carry different instruments, the dedup map merges them across groups: only
the strictly-higher-profit candidate survives, it lands in its own
instrument's winners bucket, and the other instrument's winners bucket does
not contain its candidate. -/
theorem cross_instrument_dedup (tol : ℚ) (t1 t2 : Trade)
    (hk : dedupKey t1 = dedupKey t2) (hi : t1.item ≠ t2.item)
    (hc1 : isWinnerCand tol t1 = true) (hc2 : isWinnerCand tol t2 = true)
    (hgt : jgt t2.profit t1.profit = true) :
    classifyAndGroupTrades [t1, t2] tol =
      .ok [(t1.item, TradeBuckets.empty), (t2.item, ⟨[t2], [], []⟩)] := by
  have hc1' : jgt t1.profit (some tol) = true := hc1
  have hc2' : jgt t2.profit (some tol) = true := hc2
  have hw1 := (classOf_winner_iff tol t1).mpr hc1
  have hw2 := (classOf_winner_iff tol t2).mpr hc2
  unfold classifyAndGroupTrades groupedBeforeSort
  simp only [List.foldl_cons, List.foldl_nil, classifyStep, groupedStep, winnersMapStep,
    ensureGroup, getGroup, mapGet, mapSet, hw1, hw2, hc1', hc2', hgt, hk, hi,
    addWinners, pushWinner, modifyGroup, TradeBuckets.empty, if_true, if_false,
    List.nil_append, List.cons_append, ite_true, ite_false]
  rfl

/-- **C2** counterexample: two winner candidates with identical
`(openTimeRaw, openPrice)` dedup key but different instruments (eurusd with
profit 50, gbpusd with profit 80) ARE merged across groups: the eurusd
winners bucket comes out empty, so it does not contain its own candidate as
the claim states. -/
theorem cross_instrument_dedup_cex :
    classifyAndGroupTrades [tradeEU, tradeGB] 0 =
      .ok [("eurusd", TradeBuckets.empty), ("gbpusd", ⟨[tradeGB], [], []⟩)] ∧
    dedupKey tradeEU = dedupKey tradeGB ∧
    tradeEU.item = "eurusd" ∧ tradeGB.item = "gbpusd" ∧
    isWinnerCand 0 tradeEU = true ∧ isWinnerCand 0 tradeGB = true := by
  refine ⟨?_, by decide, by decide, by decide, by decide, by decide⟩
  decide

/-- Witness for the amended C2 at the concrete eurusd/gbpusd pair. -/
theorem cross_instrument_dedup_witness :
    classifyAndGroupTrades [tradeEU, tradeGB] 0 =
      .ok [(tradeEU.item, TradeBuckets.empty), (tradeGB.item, ⟨[tradeGB], [], []⟩)] :=
  cross_instrument_dedup 0 tradeEU tradeGB (by decide) (by decide) (by decide)
    (by decide) (by decide)

/-! ## Structure of the grouping passes -/

lemma classify_foldl_split (tol : ℚ) (ts : List Trade) (g : GroupedTrades)
    (m : WinnersMap) :
    ts.foldl (classifyStep tol) (g, m) =
      (ts.foldl (groupedStep tol) g, ts.foldl (winnersMapStep tol) m) := by
  induction ts generalizing g m with
  | nil => rfl
  | cons t ts ih => simpa [classifyStep] using ih (groupedStep tol g t) (winnersMapStep tol m t)

lemma getGroup_append_single (g : GroupedTrades) (i : String) (b : TradeBuckets)
    (j : String) :
    getGroup (g ++ [(i, b)]) j =
      match getGroup g j with
      | some x => some x
      | none => if i = j then some b else none := by
  induction g with
  | nil => simp [getGroup]
  | cons p g ih =>
    by_cases hp : p.1 = j
    · simp [getGroup, hp]
    · simp [getGroup, hp, ih]

lemma getGroup_ensureGroup_self (g : GroupedTrades) (i : String) :
    getGroup (ensureGroup g i) i = some ((getGroup g i).getD TradeBuckets.empty) := by
  unfold ensureGroup
  cases h : getGroup g i with
  | some b => simp [h]
  | none => rw [getGroup_append_single, h]; simp

lemma getGroup_ensureGroup_ne (g : GroupedTrades) (i j : String) (h : i ≠ j) :
    getGroup (ensureGroup g i) j = getGroup g j := by
  unfold ensureGroup
  cases hg : getGroup g i with
  | some b => rfl
  | none =>
    rw [getGroup_append_single]
    cases hj : getGroup g j with
    | some x => rfl
    | none => simp [h]

lemma getGroup_modifyGroup (g : GroupedTrades) (i : String)
    (f : TradeBuckets → TradeBuckets) (j : String) :
    getGroup (modifyGroup g i f) j =
      if i = j then (getGroup g j).map f else getGroup g j := by
  induction g with
  | nil => simp [modifyGroup, getGroup]
  | cons p g ih =>
    simp only [modifyGroup]
    by_cases hpi : p.1 = i
    · rw [if_pos hpi]
      by_cases hij : i = j
      · have hpj : p.1 = j := hpi.trans hij
        simp [getGroup, hpj, hij]
      · have hpj : ¬p.1 = j := fun hc => hij (hpi.symm.trans hc)
        simp [getGroup, hpj, hij]
    · rw [if_neg hpi]
      by_cases hpj : p.1 = j
      · have hij : ¬i = j := fun hc => hpi (hpj.trans hc.symm)
        simp [getGroup, hpj, hij]
      · simp [getGroup, hpj, ih]

lemma getGroup_groupedStep (tol : ℚ) (g : GroupedTrades) (t : Trade) (j : String) :
    getGroup (groupedStep tol g t) j =
      if t.item = j then
        some (bucketPush (classOf tol t) t ((getGroup g j).getD TradeBuckets.empty))
      else getGroup g j := by
  unfold groupedStep
  by_cases hj : t.item = j
  · subst hj
    cases hcl : classOf tol t with
    | winner => simp [bucketPush, getGroup_ensureGroup_self]
    | breakeven => simp [bucketPush, getGroup_modifyGroup, getGroup_ensureGroup_self]
    | loser => simp [bucketPush, getGroup_modifyGroup, getGroup_ensureGroup_self]
  · cases hcl : classOf tol t with
    | winner => simp [hj, getGroup_ensureGroup_ne g t.item j hj]
    | breakeven => simp [hj, getGroup_modifyGroup, getGroup_ensureGroup_ne g t.item j hj]
    | loser => simp [hj, getGroup_modifyGroup, getGroup_ensureGroup_ne g t.item j hj]

lemma bucketAppend_push (tol : ℚ) (j : String) (t : Trade) (ts : List Trade)
    (b : TradeBuckets) (ht : t.item = j) :
    bucketAppend tol j ts (bucketPush (classOf tol t) t b) =
      bucketAppend tol j (t :: ts) b := by
  cases hcl : classOf tol t <;>
    simp [bucketAppend, bucketPush, beFilter, loFilter, List.filter_cons, ht, hcl]

lemma bucketAppend_skip (tol : ℚ) (j : String) (t : Trade) (ts : List Trade)
    (b : TradeBuckets) (ht : ¬t.item = j) :
    bucketAppend tol j (t :: ts) b = bucketAppend tol j ts b := by
  simp [bucketAppend, beFilter, loFilter, List.filter_cons, ht]

lemma getGroup_foldl_groupedStep (tol : ℚ) (ts : List Trade) (g : GroupedTrades)
    (j : String) :
    getGroup (ts.foldl (groupedStep tol) g) j =
      match getGroup g j with
      | some b => some (bucketAppend tol j ts b)
      | none =>
        if ts.any (fun t => t.item == j) then
          some (bucketAppend tol j ts TradeBuckets.empty)
        else none := by
  induction ts generalizing g with
  | nil =>
    cases h : getGroup g j <;> simp [h, bucketAppend, beFilter, loFilter]
  | cons t ts ih =>
    simp only [List.foldl_cons]
    rw [ih]
    rw [getGroup_groupedStep]
    by_cases ht : t.item = j
    · rw [if_pos ht]
      cases h : getGroup g j with
      | some b =>
        simp only [h, Option.getD_some]
        rw [bucketAppend_push tol j t ts b ht]
      | none =>
        simp only [h, Option.getD_none]
        rw [bucketAppend_push tol j t ts TradeBuckets.empty ht]
        have hb : (t.item == j) = true := by simp [ht]
        simp [List.any_cons, hb]
    · rw [if_neg ht]
      cases h : getGroup g j with
      | some b => simp [h, bucketAppend_skip tol j t ts b ht]
      | none =>
        have hb : (t.item == j) = false := by simp [ht]
        simp only [h, List.any_cons, hb, Bool.false_or]
        rw [bucketAppend_skip tol j t ts TradeBuckets.empty ht]

lemma getGroup_pushWinner (g : GroupedTrades) (v : Trade) (j : String) :
    getGroup (pushWinner g v) j =
      if v.item = j then
        (getGroup g j).map (fun b => ⟨b.winners ++ [v], b.breakeven, b.losers⟩)
      else getGroup g j := by
  unfold pushWinner
  rw [getGroup_modifyGroup]

lemma getGroup_addWinners (g : GroupedTrades) (m : WinnersMap) (j : String) :
    getGroup (addWinners g m) j =
      (getGroup g j).map (fun b =>
        ⟨b.winners ++ (mapValues m).filter (fun v => v.item == j),
          b.breakeven, b.losers⟩) := by
  induction m generalizing g with
  | nil =>
    cases h : getGroup g j <;> simp [addWinners, h, mapValues]
  | cons e m ih =>
    have hstep : addWinners g (e :: m) = addWinners (pushWinner g e.2) m := rfl
    rw [hstep, ih, getGroup_pushWinner]
    by_cases hv : e.2.item = j
    · rw [if_pos hv]
      cases h : getGroup g j with
      | none => simp
      | some b =>
        simp only [Option.map_some', Option.map_map]
        have : (e.2.item == j) = true := by simp [hv]
        simp [mapValues, List.filter_cons, this, Function.comp]
    · rw [if_neg hv]
      cases h : getGroup g j with
      | none => simp
      | some b =>
        have : (e.2.item == j) = false := by simp [hv]
        simp [mapValues, List.filter_cons, this]

lemma sortJS_ok (l l' : List Trade) (h : sortJS l = .ok l') : l' = sortByTime l := by
  unfold sortJS at h
  split at h
  · cases h
  · cases h; rfl

lemma sortBuckets_ok (b b' : TradeBuckets) (h : sortBuckets b = .ok b') :
    b' = sortBucketsNoCrash b := by
  unfold sortBuckets at h
  cases hw : sortJS b.winners with
  | error e => rw [hw] at h; cases h
  | ok w =>
    rw [hw] at h
    cases hbe : sortJS b.breakeven with
    | error e => rw [hbe] at h; cases h
    | ok be =>
      rw [hbe] at h
      cases hlo : sortJS b.losers with
      | error e => rw [hlo] at h; cases h
      | ok lo =>
        rw [hlo] at h
        cases h
        rw [sortJS_ok _ _ hw, sortJS_ok _ _ hbe, sortJS_ok _ _ hlo]
        rfl

lemma sortGrouped_ok (g g' : GroupedTrades) (h : sortGrouped g = .ok g') :
    g' = g.map (fun p => (p.1, sortBucketsNoCrash p.2)) := by
  induction g generalizing g' with
  | nil => cases h; rfl
  | cons p g ih =>
    unfold sortGrouped at h
    cases hb : sortBuckets p.2 with
    | error e => rw [hb] at h; cases h
    | ok b =>
      rw [hb] at h
      cases hr : sortGrouped g with
      | error e => rw [hr] at h; cases h
      | ok rest =>
        rw [hr] at h
        cases h
        rw [sortBuckets_ok _ _ hb, ih rest hr]
        rfl

lemma getGroup_map_buckets (g : GroupedTrades) (F : TradeBuckets → TradeBuckets)
    (j : String) :
    getGroup (g.map (fun p => (p.1, F p.2))) j = (getGroup g j).map F := by
  induction g with
  | nil => simp [getGroup]
  | cons p g ih =>
    by_cases hp : p.1 = j
    · simp [getGroup, hp]
    · simp [getGroup, hp, ih]

lemma insertByTime_split (t : Trade) (l : List Trade) :
    ∃ l1 l2, insertByTime t l = l1 ++ t :: l2 ∧ l = l1 ++ l2 ∧
      ∀ u ∈ l1, ltTime u t = true := by
  induction l with
  | nil => exact ⟨[], [], rfl, rfl, by simp⟩
  | cons u us ih =>
    by_cases hu : ltTime u t = true
    · rcases ih with ⟨l1, l2, h1, h2, h3⟩
      refine ⟨u :: l1, l2, ?_, by simp [h2], ?_⟩
      · simp [insertByTime, hu, h1]
      · intro x hx
        rcases List.mem_cons.mp hx with rfl | hx
        · exact hu
        · exact h3 x hx
    · exact ⟨[], u :: us, by simp [insertByTime, hu], rfl, by simp⟩

lemma sortByTime_perm (l : List Trade) : List.Perm (sortByTime l) l := by
  induction l with
  | nil => exact List.Perm.refl []
  | cons t ts ih =>
    rcases insertByTime_split t (sortByTime ts) with ⟨l1, l2, h1, h2, _⟩
    have hp1 : List.Perm (sortByTime (t :: ts)) (t :: (l1 ++ l2)) := by
      rw [show sortByTime (t :: ts) = insertByTime t (sortByTime ts) from rfl, h1]
      exact List.perm_middle
    rw [← h2] at hp1
    exact hp1.trans (List.Perm.cons t ih)

lemma count_sortByTime (l : List Trade) (t : Trade) :
    (sortByTime l).count t = l.count t :=
  (sortByTime_perm l).count_eq t

/-! ## Winners-map invariants -/

lemma mem_mapSet (m : WinnersMap) (k : DedupKey) (v : Trade)
    (e : DedupKey × Trade) (he : e ∈ mapSet m k v) : e ∈ m ∨ e = (k, v) := by
  induction m with
  | nil => simp [mapSet] at he; simp [he]
  | cons e' m ih =>
    simp only [mapSet] at he
    by_cases h : e'.1 = k
    · rw [if_pos h] at he
      rcases List.mem_cons.mp he with rfl | he
      · exact Or.inr rfl
      · exact Or.inl (List.mem_cons_of_mem e' he)
    · rw [if_neg h] at he
      rcases List.mem_cons.mp he with rfl | he
      · exact Or.inl (List.mem_cons_self e m)
      · rcases ih he with h' | h'
        · exact Or.inl (List.mem_cons_of_mem e' h')
        · exact Or.inr h'

lemma mem_winnersMapStep (tol : ℚ) (m : WinnersMap) (t : Trade)
    (e : DedupKey × Trade) (he : e ∈ winnersMapStep tol m t) :
    e ∈ m ∨ (e = (dedupKey t, t) ∧ isWinnerCand tol t = true) := by
  unfold winnersMapStep at he
  by_cases hc : jgt t.profit (some tol) = true
  · rw [if_pos hc] at he
    cases hget : mapGet m (dedupKey t) with
    | none =>
      simp only [hget] at he
      rcases mem_mapSet m (dedupKey t) t e he with h | h
      · exact Or.inl h
      · exact Or.inr ⟨h, hc⟩
    | some w =>
      simp only [hget] at he
      by_cases hj : jgt t.profit w.profit = true
      · rw [if_pos hj] at he
        rcases mem_mapSet m (dedupKey t) t e he with h | h
        · exact Or.inl h
        · exact Or.inr ⟨h, hc⟩
      · rw [if_neg hj] at he
        exact Or.inl he
  · rw [if_neg hc] at he
    exact Or.inl he

lemma mem_winnersMap_foldl (tol : ℚ) (ts : List Trade) (m : WinnersMap)
    (e : DedupKey × Trade) (he : e ∈ ts.foldl (winnersMapStep tol) m) :
    e ∈ m ∨ (e.1 = dedupKey e.2 ∧ isWinnerCand tol e.2 = true ∧ e.2 ∈ ts) := by
  induction ts generalizing m with
  | nil => exact Or.inl he
  | cons t ts ih =>
    simp only [List.foldl_cons] at he
    rcases ih (winnersMapStep tol m t) he with h | h
    · rcases mem_winnersMapStep tol m t e h with h' | ⟨rfl, hc⟩
      · exact Or.inl h'
      · exact Or.inr ⟨rfl, hc, by simp⟩
    · exact Or.inr ⟨h.1, h.2.1, List.mem_cons_of_mem t h.2.2⟩

lemma mem_winnersMapOf (tol : ℚ) (ts : List Trade) (e : DedupKey × Trade)
    (he : e ∈ winnersMapOf tol ts) :
    e.1 = dedupKey e.2 ∧ isWinnerCand tol e.2 = true ∧ e.2 ∈ ts := by
  rcases mem_winnersMap_foldl tol ts [] e he with h | h
  · cases h
  · exact h

lemma mapKeys_mapSet (m : WinnersMap) (k : DedupKey) (v : Trade) :
    mapKeys (mapSet m k v) = mapKeys m ∨
      (mapKeys (mapSet m k v) = mapKeys m ++ [k] ∧ k ∉ mapKeys m) := by
  induction m with
  | nil => exact Or.inr ⟨rfl, by simp [mapKeys]⟩
  | cons e m ih =>
    simp only [mapSet]
    by_cases h : e.1 = k
    · exact Or.inl (by simp [mapKeys, h])
    · rcases ih with h' | ⟨h', hk⟩
      · rw [if_neg h]
        exact Or.inl (by simp [mapKeys] at h' ⊢; exact h')
      · rw [if_neg h]
        refine Or.inr ⟨by simp [mapKeys] at h' ⊢; exact h', ?_⟩
        simp only [mapKeys, List.map_cons, List.mem_cons]
        rintro (hc | hc)
        · exact h hc.symm
        · exact hk (by simpa [mapKeys] using hc)

lemma nodup_mapKeys_winnersMapStep (tol : ℚ) (m : WinnersMap) (t : Trade)
    (h : (mapKeys m).Nodup) : (mapKeys (winnersMapStep tol m t)).Nodup := by
  unfold winnersMapStep
  by_cases hc : jgt t.profit (some tol) = true
  · rw [if_pos hc]
    have hset : ∀ k v, (mapKeys (mapSet m k v)).Nodup := by
      intro k v
      rcases mapKeys_mapSet m k v with h' | ⟨h', hk⟩
      · rw [h']; exact h
      · rw [h']
        simpa [List.nodup_append] using ⟨h, hk⟩
    cases hget : mapGet m (dedupKey t) with
    | none => simp only [hget]; exact hset _ _
    | some w =>
      simp only [hget]
      by_cases hj : jgt t.profit w.profit = true
      · rw [if_pos hj]; exact hset _ _
      · rw [if_neg hj]; exact h
  · rw [if_neg hc]; exact h

lemma nodup_mapKeys_winnersMapOf (tol : ℚ) (ts : List Trade) :
    (mapKeys (winnersMapOf tol ts)).Nodup := by
  unfold winnersMapOf
  have h : ∀ m : WinnersMap, (mapKeys m).Nodup →
      (mapKeys (ts.foldl (winnersMapStep tol) m)).Nodup := by
    induction ts with
    | nil => intro m hm; exact hm
    | cons t ts ih =>
      intro m hm
      exact ih _ (nodup_mapKeys_winnersMapStep tol m t hm)
  exact h [] (by simp [mapKeys])

lemma count_mapValues_zero (m : WinnersMap) (t : Trade)
    (hinv : ∀ e ∈ m, e.1 = dedupKey e.2) (hk : dedupKey t ∉ mapKeys m) :
    (mapValues m).count t = 0 := by
  rw [List.count_eq_zero]
  intro hmem
  rcases List.mem_map.mp hmem with ⟨e, he, hval⟩
  apply hk
  have : e.1 = dedupKey t := by rw [hinv e he, hval]
  rw [← this]
  exact List.mem_map.mpr ⟨e, he, rfl⟩

lemma count_mapValues (m : WinnersMap) (t : Trade)
    (hinv : ∀ e ∈ m, e.1 = dedupKey e.2) (hnd : (mapKeys m).Nodup) :
    (mapValues m).count t =
      if mapGet m (dedupKey t) = some t then 1 else 0 := by
  induction m with
  | nil => simp [mapValues, mapGet]
  | cons e m ih =>
    have hinv' : ∀ e' ∈ m, e'.1 = dedupKey e'.2 :=
      fun e' he' => hinv e' (List.mem_cons_of_mem e he')
    have hnd' : (mapKeys m).Nodup := by
      simpa [mapKeys, List.nodup_cons] using hnd.sublist (by simp [mapKeys])
    have hhead : e.1 ∉ mapKeys m := by
      have := hnd
      simp only [mapKeys, List.map_cons, List.nodup_cons] at this
      simpa [mapKeys] using this.1
    simp only [mapValues, List.map_cons, List.count_cons, mapGet]
    by_cases hv : e.2 = t
    · have hekey : e.1 = dedupKey t := by rw [hinv e (by simp), hv]
      have hz : (mapValues m).count t = 0 :=
        count_mapValues_zero m t hinv' (hekey ▸ hhead)
      simp only [mapValues] at hz
      simp [hekey, hv, hz]
    · by_cases hekey : e.1 = dedupKey t
      · have hz : (mapValues m).count t = 0 :=
          count_mapValues_zero m t hinv' (hekey ▸ hhead)
        simp only [mapValues] at hz
        simp [hekey, hv, hz]
      · have hih := ih hinv' hnd'
        simp only [mapValues] at hih
        simp [hekey, hv, hih]

/-! ## The partition property -/

lemma count_beFilter (tol : ℚ) (j : String) (ts : List Trade) (t : Trade) :
    (beFilter tol j ts).count t =
      if t.item = j ∧ classOf tol t = .breakeven then ts.count t else 0 := by
  unfold beFilter
  by_cases h : t.item = j ∧ classOf tol t = .breakeven
  · rw [if_pos h]
    exact List.count_filter (by simp [h.1, h.2])
  · rw [if_neg h]
    rw [List.count_eq_zero]
    intro hmem
    have hp := List.of_mem_filter hmem
    simp only [Bool.and_eq_true, decide_eq_true_eq] at hp
    exact h hp

lemma count_loFilter (tol : ℚ) (j : String) (ts : List Trade) (t : Trade) :
    (loFilter tol j ts).count t =
      if t.item = j ∧ classOf tol t = .loser then ts.count t else 0 := by
  unfold loFilter
  by_cases h : t.item = j ∧ classOf tol t = .loser
  · rw [if_pos h]
    exact List.count_filter (by simp [h.1, h.2])
  · rw [if_neg h]
    rw [List.count_eq_zero]
    intro hmem
    have hp := List.of_mem_filter hmem
    simp only [Bool.and_eq_true, decide_eq_true_eq] at hp
    exact h hp

lemma count_winnersFilter (tol : ℚ) (ts : List Trade) (j : String) (t : Trade) :
    ((mapValues (winnersMapOf tol ts)).filter (fun v => v.item == j)).count t =
      if t.item = j ∧ mapGet (winnersMapOf tol ts) (dedupKey t) = some t
      then 1 else 0 := by
  have hinv : ∀ e ∈ winnersMapOf tol ts, e.1 = dedupKey e.2 :=
    fun e he => (mem_winnersMapOf tol ts e he).1
  have hnd := nodup_mapKeys_winnersMapOf tol ts
  by_cases hj : t.item = j
  · rw [List.count_filter (by simp [hj])]
    rw [count_mapValues _ _ hinv hnd]
    by_cases hm : mapGet (winnersMapOf tol ts) (dedupKey t) = some t <;>
      simp [hm, hj]
  · have hnm : t ∉ (mapValues (winnersMapOf tol ts)).filter (fun v => v.item == j) := by
      intro hmem
      have hp := List.of_mem_filter hmem
      simp only [beq_iff_eq] at hp
      exact hj hp
    rw [List.count_eq_zero_of_not_mem hnm]
    simp [hj]

lemma getGroup_groupedBeforeSort (tol : ℚ) (ts : List Trade) (j : String) :
    getGroup (groupedBeforeSort ts tol) j =
      if ts.any (fun u => u.item == j) then
        some ⟨(mapValues (winnersMapOf tol ts)).filter (fun v => v.item == j),
              beFilter tol j ts, loFilter tol j ts⟩
      else none := by
  have hsplit : groupedBeforeSort ts tol =
      addWinners (ts.foldl (groupedStep tol) []) (ts.foldl (winnersMapStep tol) []) := by
    unfold groupedBeforeSort
    rw [classify_foldl_split]
  rw [hsplit, getGroup_addWinners, getGroup_foldl_groupedStep]
  simp only [getGroup]
  by_cases ha : ts.any (fun u => u.item == j) = true
  · simp [ha, bucketAppend, TradeBuckets.empty, winnersMapOf]
  · simp [ha]

/-- **C1** (amended): after `classifyAndGroupTrades` succeeds, a group
exists exactly for each instrument occurring in the input, and each input
trade occurs only inside the group of its own instrument, in the single
bucket given by its classification: a breakeven (resp. loser) trade keeps
every input occurrence in the breakeven (resp. losers) bucket of its group
and occurs nowhere else; a trade occurs in a winners bucket exactly when the
dedup map kept it for its key (so a winner candidate displaced by a
higher-profit duplicate is absent from the whole result), and then exactly
once.  No trade is duplicated across buckets or groups. -/
theorem trade_partition (tol : ℚ) (ts : List Trade) (g : GroupedTrades) (t : Trade)
    (hok : classifyAndGroupTrades ts tol = .ok g) :
    (∀ j, (getGroup g j).isSome = true ↔ ts.any (fun u => u.item == j) = true) ∧
    (∀ j b, getGroup g j = some b →
      b.breakeven.count t =
          (if t.item = j ∧ classOf tol t = .breakeven then ts.count t else 0) ∧
        b.losers.count t =
          (if t.item = j ∧ classOf tol t = .loser then ts.count t else 0) ∧
        b.winners.count t =
          (if t.item = j ∧ mapGet (winnersMapOf tol ts) (dedupKey t) = some t
           then 1 else 0)) := by
  have hg : g = (groupedBeforeSort ts tol).map (fun p => (p.1, sortBucketsNoCrash p.2)) :=
    sortGrouped_ok _ _ hok
  constructor
  · intro j
    rw [hg, getGroup_map_buckets, getGroup_groupedBeforeSort]
    by_cases ha : ts.any (fun u => u.item == j) = true <;> simp [ha]
  · intro j b hb
    rw [hg, getGroup_map_buckets, getGroup_groupedBeforeSort] at hb
    by_cases ha : ts.any (fun u => u.item == j) = true
    · rw [if_pos ha] at hb
      simp only [Option.map_some', Option.some.injEq] at hb
      subst hb
      refine ⟨?_, ?_, ?_⟩ <;> simp only [sortBucketsNoCrash]
      · rw [count_sortByTime, count_beFilter]
      · rw [count_sortByTime, count_loFilter]
      · rw [count_sortByTime, count_winnersFilter]
    · rw [if_neg ha] at hb
      cases hb

/-- Witness for the amended C1 at a duplicated-key winner pair: in the
result of `classifyAndGroupTrades [dupTradeA, dupTradeB] 0` the eurusd
bucket counts for `dupTradeA` are all zero (it was displaced by the
higher-profit duplicate). -/
theorem trade_partition_witness :
    (⟨[dupTradeB], [], []⟩ : TradeBuckets).breakeven.count dupTradeA =
        (if dupTradeA.item = "eurusd" ∧ classOf 0 dupTradeA = .breakeven
         then ([dupTradeA, dupTradeB] : List Trade).count dupTradeA else 0) ∧
      (⟨[dupTradeB], [], []⟩ : TradeBuckets).losers.count dupTradeA =
        (if dupTradeA.item = "eurusd" ∧ classOf 0 dupTradeA = .loser
         then ([dupTradeA, dupTradeB] : List Trade).count dupTradeA else 0) ∧
      (⟨[dupTradeB], [], []⟩ : TradeBuckets).winners.count dupTradeA =
        (if dupTradeA.item = "eurusd" ∧
            mapGet (winnersMapOf 0 [dupTradeA, dupTradeB]) (dedupKey dupTradeA) =
              some dupTradeA
         then 1 else 0) :=
  (trade_partition 0 [dupTradeA, dupTradeB] [("eurusd", ⟨[dupTradeB], [], []⟩)]
    dupTradeA (by decide)).2 "eurusd" ⟨[dupTradeB], [], []⟩ (by decide)

/-- **C1** counterexample: the claim as stated fails — with two winner
candidates sharing the dedup key, the lower-profit input trade `dupTradeA`
is absent from every bucket of the result (the only non-empty bucket is the
winners bucket `[dupTradeB]`), so not every input trade appears in a
bucket. -/
theorem trade_partition_cex :
    classifyAndGroupTrades [dupTradeA, dupTradeB] 0 =
      .ok [("eurusd", ⟨[dupTradeB], [], []⟩)] ∧
    dupTradeA ≠ dupTradeB := by
  refine ⟨?_, by decide⟩
  decide

/-! ## Sortedness and stability of the buckets -/

lemma ltTime_true_elim {a b : Trade} (h : ltTime a b = true) :
    ∃ x y, parseMT4DateToUTC a.openTimeRaw = .ok (some x) ∧
      parseMT4DateToUTC b.openTimeRaw = .ok (some y) ∧ x < y := by
  unfold ltTime at h
  cases hA : parseMT4DateToUTC a.openTimeRaw with
  | error e => rw [hA] at h; cases h
  | ok oa =>
    cases hB : parseMT4DateToUTC b.openTimeRaw with
    | error e => rw [hA, hB] at h; cases oa <;> cases h
    | ok ob =>
      rw [hA, hB] at h
      cases oa with
      | none => cases ob <;> cases h
      | some x =>
        cases ob with
        | none => cases h
        | some y => exact ⟨x, y, rfl, rfl, by simpa using h⟩

lemma ltTime_asymm {a b : Trade} (h : ltTime a b = true) : ltTime b a = false := by
  rcases ltTime_true_elim h with ⟨x, y, hA, hB, hxy⟩
  unfold ltTime
  rw [hA, hB]
  simp
  omega

lemma ltTime_false_of_not_true {a b : Trade} (h : ¬ltTime a b = true) :
    ltTime a b = false := by
  cases hval : ltTime a b
  · rfl
  · exact absurd hval h

lemma chain_insertByTime (t : Trade) (l : List Trade)
    (h : List.Chain' (fun a b => ltTime b a = false) l) :
    List.Chain' (fun a b => ltTime b a = false) (insertByTime t l) := by
  induction l with
  | nil => simp [insertByTime]
  | cons u us ih =>
    simp only [insertByTime]
    by_cases hu : ltTime u t = true
    · rw [if_pos hu]
      have h2 := (List.chain'_cons'.mp h).2
      rw [List.chain'_cons']
      refine ⟨?_, ih h2⟩
      intro y hy
      cases us with
      | nil =>
        simp [insertByTime] at hy
        subst hy
        exact ltTime_asymm hu
      | cons v vs =>
        simp only [insertByTime] at hy
        by_cases hv : ltTime v t = true
        · rw [if_pos hv] at hy
          simp at hy
          subst hy
          exact (List.chain'_cons'.mp h).1 v (by simp)
        · rw [if_neg hv] at hy
          simp at hy
          subst hy
          exact ltTime_asymm hu
    · rw [if_neg hu]
      rw [List.chain'_cons']
      refine ⟨?_, h⟩
      intro y hy
      simp at hy
      subst hy
      exact ltTime_false_of_not_true hu

lemma chain_sortByTime (l : List Trade) :
    List.Chain' (fun a b => ltTime b a = false) (sortByTime l) := by
  induction l with
  | nil => simp [sortByTime]
  | cons t ts ih => exact chain_insertByTime t (sortByTime ts) ih

lemma chain_timeLE_sortByTime (l : List Trade) :
    List.Chain' timeLE (sortByTime l) := by
  apply List.Chain'.imp ?_ (chain_sortByTime l)
  intro a b hf x y hx hy
  unfold ltTime at hf
  rw [hx, hy] at hf
  simp at hf
  omega

lemma filter_insertByTime (t : Trade) (l : List Trade) (c : Int) :
    (insertByTime t l).filter (fun u => keyIs u c) =
      if keyIs t c then t :: l.filter (fun u => keyIs u c)
      else l.filter (fun u => keyIs u c) := by
  rcases insertByTime_split t l with ⟨l1, l2, h1, h2, h3⟩
  rw [h1, h2]
  rw [List.filter_append, List.filter_append, List.filter_cons]
  by_cases hk : keyIs t c = true
  · have hparse : parseMT4DateToUTC t.openTimeRaw = .ok (some c) := by
      have := hk
      simp only [keyIs, decide_eq_true_eq] at this
      exact this
    have hl1 : l1.filter (fun u => keyIs u c) = [] := by
      rw [List.filter_eq_nil_iff]
      intro u hu
      rcases ltTime_true_elim (h3 u hu) with ⟨x, y, hA, hB, hxy⟩
      rw [hparse] at hB
      simp only [Except.ok.injEq, Option.some.injEq] at hB
      subst hB
      simp only [keyIs, hA, decide_eq_true_eq, Bool.not_eq_true]
      simp only [Except.ok.injEq, Option.some.injEq, decide_eq_false_iff_not]
      omega
    rw [hl1]
    simp [hk]
  · have hkf : keyIs t c = false := by
      cases hval : keyIs t c
      · rfl
      · exact absurd hval hk
    rw [hkf]
    simp

lemma filter_sortByTime (l : List Trade) (c : Int) :
    (sortByTime l).filter (fun u => keyIs u c) = l.filter (fun u => keyIs u c) := by
  induction l with
  | nil => rfl
  | cons t ts ih =>
    rw [show sortByTime (t :: ts) = insertByTime t (sortByTime ts) from rfl,
      filter_insertByTime, List.filter_cons]
    by_cases hk : keyIs t c = true
    · simp [hk, ih]
    · have hkf : keyIs t c = false := by
        cases hval : keyIs t c
        · rfl
        · exact absurd hval hk
      simp [hkf, ih]

/-- **C9**: in a successful `classifyAndGroupTrades` result, every bucket of
every instrument group is ascending by true (broker-offset-normalized) open
time — for every adjacent pair, whenever both open times parse to valid
instants the earlier element's instant is at most the later one's — and
trades with equal open times keep their relative order from the
grouping/dedup pass (the equal-instant subsequence of each sorted bucket is
exactly the one of the corresponding pre-sort bucket). -/
theorem buckets_sorted_stable (ts : List Trade) (tol : ℚ) (g : GroupedTrades)
    (hok : classifyAndGroupTrades ts tol = .ok g) (j : String) (b b0 : TradeBuckets)
    (hb : getGroup g j = some b)
    (hb0 : getGroup (groupedBeforeSort ts tol) j = some b0) :
    (List.Chain' timeLE b.winners ∧ List.Chain' timeLE b.breakeven ∧
      List.Chain' timeLE b.losers) ∧
    (∀ c : Int,
      b.winners.filter (fun u => keyIs u c) = b0.winners.filter (fun u => keyIs u c) ∧
      b.breakeven.filter (fun u => keyIs u c) = b0.breakeven.filter (fun u => keyIs u c) ∧
      b.losers.filter (fun u => keyIs u c) = b0.losers.filter (fun u => keyIs u c)) := by
  have hg := sortGrouped_ok _ _ hok
  rw [hg, getGroup_map_buckets, hb0] at hb
  simp only [Option.map_some', Option.some.injEq] at hb
  subst hb
  simp only [sortBucketsNoCrash]
  exact ⟨⟨chain_timeLE_sortByTime _, chain_timeLE_sortByTime _, chain_timeLE_sortByTime _⟩,
    fun c => ⟨filter_sortByTime _ c, filter_sortByTime _ c, filter_sortByTime _ c⟩⟩

/-- Witness for C9: two eurusd losers entered in reverse time order come out
of the pipeline time-sorted (and the theorem applies at this concrete
result). -/
theorem buckets_sorted_stable_witness :
    List.Chain' timeLE ([loserT2, loserT1] : List Trade) :=
  ((buckets_sorted_stable [loserT1, loserT2] 0
    [("eurusd", ⟨[], [], [loserT2, loserT1]⟩)] (by decide) "eurusd"
    ⟨[], [], [loserT2, loserT1]⟩ ⟨[], [], [loserT1, loserT2]⟩
    (by decide) (by decide)).1).2.2

/-! ## Row acceptance in the report scan -/

lemma jsTrim_eq_structure (s m : String) (h : jsTrim s = m) :
    ∃ w1 w2 : List Char, s.data = w1 ++ m.data ++ w2 ∧
      (∀ c ∈ w1, c.isWhitespace) ∧ (∀ c ∈ w2, c.isWhitespace) := by
  have hdata :
      ((s.data.dropWhile Char.isWhitespace).reverse.dropWhile Char.isWhitespace).reverse
        = m.data := congrArg String.data h
  set a := s.data.dropWhile Char.isWhitespace with ha_def
  have hs : s.data = s.data.takeWhile Char.isWhitespace ++ a :=
    (List.takeWhile_append_dropWhile _ _).symm
  have ha2 : a = (a.reverse.dropWhile Char.isWhitespace).reverse ++
      (a.reverse.takeWhile Char.isWhitespace).reverse := by
    have hrr : a.reverse =
        a.reverse.takeWhile Char.isWhitespace ++ a.reverse.dropWhile Char.isWhitespace :=
      (List.takeWhile_append_dropWhile _ _).symm
    calc a = a.reverse.reverse := (List.reverse_reverse a).symm
      _ = (a.reverse.takeWhile Char.isWhitespace ++
            a.reverse.dropWhile Char.isWhitespace).reverse := by rw [← hrr]
      _ = (a.reverse.dropWhile Char.isWhitespace).reverse ++
            (a.reverse.takeWhile Char.isWhitespace).reverse := by
        rw [List.reverse_append]
  refine ⟨s.data.takeWhile Char.isWhitespace,
    (a.reverse.takeWhile Char.isWhitespace).reverse, ?_, ?_, ?_⟩
  · conv_lhs => rw [hs, ha2, hdata]
    exact (List.append_assoc _ _ _).symm
  · intro c hc
    exact List.mem_takeWhile_imp hc
  · intro c hc
    rw [List.mem_reverse] at hc
    exact List.mem_takeWhile_imp hc

lemma listStarts_subset {p l : List Char} (h : listStarts p l = true) :
    ∀ c ∈ p, c ∈ l := by
  induction p generalizing l with
  | nil => simp
  | cons q ps ih =>
    cases l with
    | nil => cases h
    | cons c cs =>
      simp only [listStarts, Bool.and_eq_true, beq_iff_eq] at h
      intro x hx
      rcases List.mem_cons.mp hx with rfl | hx
      · simp [h.1]
      · exact List.mem_cons_of_mem c (ih h.2 x hx)

lemma listHasSub_subset {p l : List Char} (h : listHasSub p l = true) :
    ∀ c ∈ p, c ∈ l := by
  induction l with
  | nil =>
    cases p with
    | nil => simp
    | cons q ps => cases h
  | cons c cs ih =>
    simp only [listHasSub, Bool.or_eq_true] at h
    rcases h with h | h
    · exact listStarts_subset h
    · intro x hx
      exact List.mem_cons_of_mem c (ih h x hx)

lemma parseSignedParts_consC (tail : List Char) :
    parseSignedParts ('C' :: tail) = none := rfl

lemma sentinel_row_facts (r : List String) (h : isSentinelRow r = true) :
    isTerminatorRow r = false ∧ isTradeRow r = false := by
  cases r with
  | nil => cases h
  | cons c rest =>
    simp only [isSentinelRow, beq_iff_eq] at h
    rcases jsTrim_eq_structure c _ h with ⟨w1, w2, hdata, hw1, hw2⟩
    have hnotin : ∀ x : Char, ¬x.isWhitespace →
        x ∉ ("Closed Transactions:" : String).data → x ∉ c.data := by
      intro x hxw hxm hmem
      rw [hdata] at hmem
      simp only [List.append_assoc, List.mem_append] at hmem
      rcases hmem with hm | hm | hm
      · exact hxw (hw1 x hm)
      · exact hxm hm
      · exact hxw (hw2 x hm)
    constructor
    · simp only [isTerminatorRow]
      have h1 : jsIncludes c "Open Trades:" = false := by
        cases hval : jsIncludes c "Open Trades:"
        · rfl
        · exact absurd (listHasSub_subset hval 'O' (by decide))
            (hnotin 'O' (by decide) (by decide))
      have h2 : jsIncludes c "Closed P/L:" = false := by
        cases hval : jsIncludes c "Closed P/L:"
        · rfl
        · exact absurd (listHasSub_subset hval 'P' (by decide))
            (hnotin 'P' (by decide) (by decide))
      rw [h1, h2]
      rfl
    · have hpf : jsParseFloat c = none := by
        unfold jsParseFloat
        have hw1' : c.data.dropWhile Char.isWhitespace =
            ("Closed Transactions:" : String).data ++ w2 := by
          rw [hdata, List.append_assoc, List.dropWhile_append]
          have hempty : (w1.dropWhile Char.isWhitespace).isEmpty = true := by
            rw [List.isEmpty_iff, List.dropWhile_eq_nil_iff]
            exact hw1
          rw [hempty]
          simp only [if_true]
          rfl
        rw [hw1']
        have hC : ("Closed Transactions:" : String).data ++ w2 =
            'C' :: (("losed Transactions:" : String).data ++ w2) := rfl
        rw [hC, parseSignedParts_consC]
        rfl
      simp only [isTradeRow, List.headD, hpf]
      simp

lemma collectRows_false_eq (rows : List (List String)) :
    collectRows rows false =
      match rows.dropWhile (fun r => !isSentinelRow r) with
      | [] => []
      | _ :: rest => collectRows rest true := by
  induction rows with
  | nil => rfl
  | cons r rs ih =>
    by_cases hs : isSentinelRow r = true
    · simp [collectRows, hs, List.dropWhile_cons]
    · have hsf : isSentinelRow r = false := by
        cases hval : isSentinelRow r
        · rfl
        · exact absurd hval hs
      simp [collectRows, hsf, List.dropWhile_cons, ih]

lemma collectRows_true_eq (rows : List (List String)) :
    collectRows rows true =
      ((rows.takeWhile (fun r => !isTerminatorRow r)).filter isTradeRow).map mkTrade := by
  induction rows with
  | nil => rfl
  | cons r rs ih =>
    by_cases hs : isSentinelRow r = true
    · have hfacts := sentinel_row_facts r hs
      simp [collectRows, hs, List.takeWhile_cons, hfacts.1, List.filter_cons, hfacts.2, ih]
    · have hsf : isSentinelRow r = false := by
        cases hval : isSentinelRow r
        · rfl
        · exact absurd hval hs
      by_cases ht : isTerminatorRow r = true
      · simp [collectRows, hsf, ht, List.takeWhile_cons]
      · have htf : isTerminatorRow r = false := by
          cases hval : isTerminatorRow r
          · rfl
          · exact absurd hval ht
        by_cases htr : isTradeRow r = true
        · simp [collectRows, hsf, htf, htr, List.takeWhile_cons, List.filter_cons, ih]
        · have htrf : isTradeRow r = false := by
            cases hval : isTradeRow r
            · rfl
            · exact absurd hval htr
          simp [collectRows, hsf, htf, htrf, List.takeWhile_cons, List.filter_cons, ih]

/-- **C8**: the scan of the located table accepts exactly the rows that come
after the header-sentinel row (the first row whose first cell trims to
`"Closed Transactions:"`, itself skipped — a sentinel row can be neither a
terminator nor a trade row), before the first terminator row (first cell
containing `"Open Trades:"` or `"Closed P/L:"`), with exactly 14 columns and
a first column that parses as a number — and maps each accepted row to its
trade record in order. -/
theorem row_acceptance (rows : List (List String)) :
    collectRows rows false = (acceptedRows rows).map mkTrade ∧
    (∀ r, isSentinelRow r = true →
      isTerminatorRow r = false ∧ isTradeRow r = false) := by
  refine ⟨?_, fun r h => sentinel_row_facts r h⟩
  rw [collectRows_false_eq]
  unfold acceptedRows rowsAfterSentinel
  cases hdrop : rows.dropWhile (fun r => !isSentinelRow r) with
  | nil => rfl
  | cons r rest => exact collectRows_true_eq rest

/-- Witness for C8 at the minimal sample table: one accepted row, and the
sentinel-row facts at the concrete sentinel. -/
theorem row_acceptance_witness :
    collectRows sampleRows false = (acceptedRows sampleRows).map mkTrade ∧
    (isTerminatorRow [" Closed Transactions: "] = false ∧
      isTradeRow [" Closed Transactions: "] = false) :=
  ⟨(row_acceptance sampleRows).1,
    (row_acceptance sampleRows).2 [" Closed Transactions: "] (by decide)⟩

/-! ## The error taxonomy of processReport -/

/-- **C6**: `processReport` either returns the complete grouped result of
all accepted trades, or fails with exactly one of the three distinguishable
error kinds and no partial result: `missingSection` iff no table's text
contains `"Closed Transactions:"`; `emptyReport` iff such a table exists but
zero rows are accepted; `malformed` iff trades were accepted and the
classification/sort stage threw (the catch-all for any other parse
failure — the document parser itself is total). -/
theorem processReport_errors (doc : List TableModel) (tol : ℚ) :
    (processReport doc tol = .error .missingSection ↔ findMarkerTable doc = none) ∧
    (processReport doc tol = .error .emptyReport ↔
      ∃ tb, findMarkerTable doc = some tb ∧ collectRows tb.rows false = []) ∧
    (processReport doc tol = .error .malformed ↔
      ∃ tb, findMarkerTable doc = some tb ∧ collectRows tb.rows false ≠ [] ∧
        classifyAndGroupTrades (collectRows tb.rows false) tol = .error ()) ∧
    (∀ g, processReport doc tol = .ok g ↔
      ∃ tb, findMarkerTable doc = some tb ∧ collectRows tb.rows false ≠ [] ∧
        classifyAndGroupTrades (collectRows tb.rows false) tol = .ok g) := by
  unfold processReport
  cases hf : findMarkerTable doc with
  | none => simp
  | some tb =>
    simp only [Option.some.injEq]
    by_cases he : collectRows tb.rows false = []
    · have hemp : (collectRows tb.rows false).isEmpty = true := by simp [he]
      simp [hemp, he]
    · have hemp : (collectRows tb.rows false).isEmpty = false := by simp [he]
      simp only [hemp, Bool.false_eq_true, if_false]
      cases hc : classifyAndGroupTrades (collectRows tb.rows false) tol with
      | error e =>
        cases e
        simp [he, hc]
      | ok g0 => simp [he, hc]

/-- Witness for C6: on a document with the minimal sample table the report
succeeds with the complete grouped result of its single accepted trade. -/
theorem processReport_errors_witness :
    processReport [sampleTable] 0 =
      .ok [("eurusd", ⟨[mkTrade sampleRow], [], []⟩)] :=
  ((processReport_errors [sampleTable] 0).2.2.2
      [("eurusd", ⟨[mkTrade sampleRow], [], []⟩)]).mpr
    ⟨sampleTable, by decide, by decide, by decide⟩

/-! ## Per-row field defaulting -/

/-- **C7** counterexample: the row `badCellRow` is accepted, its size cell
`"abc"` fails to parse as a number, and the resulting `size` field is `NaN`
(`none`), not zero as the claim states. -/
theorem row_field_defaults_cex :
    isTradeRow badCellRow = true ∧
    jsParseFloat (jsTrim "abc") = none ∧
    (mkTrade badCellRow).size = none ∧
    (mkTrade badCellRow).size ≠ some 0 := by
  refine ⟨by decide, by decide, by decide, by decide⟩

/-- **C7** (amended): in an accepted row, a numeric cell that is empty (or
whitespace-only) defaults to zero, while a non-empty cell simply receives
`parseFloat`'s value — `NaN`, not zero, when it fails to parse; a missing or
empty string cell defaults to the empty string or the literal `"unknown"`;
and acceptance of the row depends only on its column count and first cell,
so a malformed cell never aborts the report. -/
theorem row_field_defaults (r : List String) (hacc : isTradeRow r = true) :
    ((jsTrim (r.getD 3 "") = "" → (mkTrade r).size = some 0) ∧
      (jsTrim (r.getD 3 "") ≠ "" →
        (mkTrade r).size = jsParseFloat (jsTrim (r.getD 3 "")))) ∧
    ((jsTrim (r.getD 5 "") = "" → (mkTrade r).openPrice = some 0) ∧
      (jsTrim (r.getD 5 "") ≠ "" →
        (mkTrade r).openPrice = jsParseFloat (jsTrim (r.getD 5 "")))) ∧
    ((jsTrim (r.getD 9 "") = "" → (mkTrade r).closePrice = some 0) ∧
      (jsTrim (r.getD 9 "") ≠ "" →
        (mkTrade r).closePrice = jsParseFloat (jsTrim (r.getD 9 "")))) ∧
    ((r.getD 13 "" = "" → (mkTrade r).profit = some 0) ∧
      (r.getD 13 "" ≠ "" →
        (mkTrade r).profit = jsParseFloat (stripSpaces (r.getD 13 "")))) ∧
    ((jsTrim (r.getD 2 "") = "" → (mkTrade r).type = "unknown") ∧
      (jsTrim (r.getD 4 "") = "" → (mkTrade r).item = "unknown") ∧
      (jsTrim (r.getD 0 "") = "" → (mkTrade r).ticket = "") ∧
      (jsTrim (r.getD 8 "") = "" → (mkTrade r).closeTimeRaw = "")) ∧
    (∀ r' : List String, r'.length = 14 → r'.headD "" = r.headD "" →
      isTradeRow r' = true) := by
  refine ⟨⟨?_, ?_⟩, ⟨?_, ?_⟩, ⟨?_, ?_⟩, ⟨?_, ?_⟩, ⟨?_, ?_, ?_, ?_⟩, ?_⟩
  · intro h
    show jsParseFloat (emptyOr (jsTrim (r.getD 3 "")) "0") = some 0
    rw [h]; decide
  · intro h
    show jsParseFloat (emptyOr (jsTrim (r.getD 3 "")) "0") =
      jsParseFloat (jsTrim (r.getD 3 ""))
    rw [show emptyOr (jsTrim (r.getD 3 "")) "0" = jsTrim (r.getD 3 "") from by
      unfold emptyOr
      exact if_neg (fun hc => h (eq_of_beq hc))]
  · intro h
    show jsParseFloat (emptyOr (jsTrim (r.getD 5 "")) "0") = some 0
    rw [h]; decide
  · intro h
    show jsParseFloat (emptyOr (jsTrim (r.getD 5 "")) "0") =
      jsParseFloat (jsTrim (r.getD 5 ""))
    rw [show emptyOr (jsTrim (r.getD 5 "")) "0" = jsTrim (r.getD 5 "") from by
      unfold emptyOr
      exact if_neg (fun hc => h (eq_of_beq hc))]
  · intro h
    show jsParseFloat (emptyOr (jsTrim (r.getD 9 "")) "0") = some 0
    rw [h]; decide
  · intro h
    show jsParseFloat (emptyOr (jsTrim (r.getD 9 "")) "0") =
      jsParseFloat (jsTrim (r.getD 9 ""))
    rw [show emptyOr (jsTrim (r.getD 9 "")) "0" = jsTrim (r.getD 9 "") from by
      unfold emptyOr
      exact if_neg (fun hc => h (eq_of_beq hc))]
  · intro h
    show jsParseFloat (stripSpaces (emptyOr (r.getD 13 "") "0")) = some 0
    rw [h]; decide
  · intro h
    show jsParseFloat (stripSpaces (emptyOr (r.getD 13 "") "0")) =
      jsParseFloat (stripSpaces (r.getD 13 ""))
    rw [show emptyOr (r.getD 13 "") "0" = r.getD 13 "" from by
      unfold emptyOr
      exact if_neg (fun hc => h (eq_of_beq hc))]
  · intro h
    show emptyOr (jsTrim (r.getD 2 "")) "unknown" = "unknown"
    rw [h]; decide
  · intro h
    show jsToLower (emptyOr (jsTrim (r.getD 4 "")) "unknown") = "unknown"
    rw [h]; decide
  · intro h
    show jsTrim (r.getD 0 "") = ""
    exact h
  · intro h
    show jsTrim (r.getD 8 "") = ""
    exact h
  · intro r' hlen hhead
    show (r'.length == 14 && (jsParseFloat (r'.headD "")).isSome) = true
    rw [hhead, hlen]
    simp only [isTradeRow, Bool.and_eq_true] at hacc
    rw [hacc.2]
    decide

/-- Witness for the amended C7 at `badCellRow`: the unparsable non-empty
size cell yields `parseFloat`'s `NaN`, and the row stays accepted. -/
theorem row_field_defaults_witness :
    (mkTrade badCellRow).size = jsParseFloat (jsTrim (badCellRow.getD 3 "")) :=
  ((row_field_defaults badCellRow (by decide)).1).2 (by decide)

/-! ## Generated drawing statements -/

lemma ebind_error {α β : Type} (e : Unit) (f : α → Except Unit β) :
    (Except.error e >>= f) = Except.error e := rfl

lemma ebind_ok {α β : Type} (a : α) (f : α → Except Unit β) :
    (Except.ok a >>= f) = f a := rfl

lemma epure {α : Type} (a : α) : (pure a : Except Unit α) = Except.ok a := rfl

/-- **C10**: for a group with exactly one winner, one breakeven and one
loser trade, the generated script contains exactly four `label.new` marker
calls (two for the winner, one each for breakeeven and loser) and exactly
one `line.new` call; the label colors are green, green, blue, red in order;
the winner markers are diamonds, the breakeven marker a circle, and the
loser marker a triangle-up exactly when its side is `"buy"` and
triangle-down otherwise. -/
theorem script_markers (item : String) (w be lo : Trade) (ps : PineScript)
    (hok : generatePineScript item ⟨[w], [be], [lo]⟩ = .ok ps) :
    countLabelNew ps.stmts = 4 ∧ countLineNew ps.stmts = 1 ∧
    labelColors ps.stmts = [.green, .green, .blue, .red] ∧
    labelStyles ps.stmts =
      [.diamond, .diamond, .circle,
        if lo.type == "buy" then LabelStyle.triangleup
        else LabelStyle.triangledown] := by
  cases hw : toTimestamp w.openTimeRaw with
  | error e =>
    cases e
    simp only [generatePineScript, generateLabels, labelsFor, hw, ebind_error,
      ebind_ok, epure] at hok
    cases hok
  | ok o1 =>
    cases hc : toTimestamp w.closeTimeRaw with
    | error e =>
      cases e
      simp only [generatePineScript, generateLabels, labelsFor, hw, hc,
        ebind_error, ebind_ok, epure] at hok
      cases hok
    | ok o2 =>
      cases hb : toTimestamp be.openTimeRaw with
      | error e =>
        cases e
        simp only [generatePineScript, generateLabels, labelsFor, hw, hc, hb,
          ebind_error, ebind_ok, epure] at hok
        cases hok
      | ok o3 =>
        cases hl : toTimestamp lo.openTimeRaw with
        | error e =>
          cases e
          simp only [generatePineScript, generateLabels, labelsFor, hw, hc, hb,
            hl, ebind_error, ebind_ok, epure] at hok
          cases hok
        | ok o4 =>
          simp only [generatePineScript, generateLabels, labelsFor, hw, hc, hb,
            hl, ebind_error, ebind_ok, epure, Except.ok.injEq] at hok
          subst hok
          refine ⟨rfl, rfl, rfl, rfl⟩

/-- Witness for C10 at a concrete one-winner/one-breakeven/one-loser group
(the loser's side is `"buy"`, so its marker is a triangle-up). -/
theorem script_markers_witness :
    countLabelNew samplePine.stmts = 4 ∧ countLineNew samplePine.stmts = 1 ∧
    labelColors samplePine.stmts = [.green, .green, .blue, .red] ∧
    labelStyles samplePine.stmts =
      [.diamond, .diamond, .circle,
        if loserT1.type == "buy" then LabelStyle.triangleup
        else LabelStyle.triangledown] :=
  script_markers "eurusd" tradeP50 beTrade loserT1 samplePine (by decide)

end MT4
